import Mathlib

/-!
Verification of the text/record translation core of the `rf_azure_sync`
repository (files `rf_azure_sync/rf_azure_sync_get.py` and
`rf_azure_sync/rf_azure_sync_patch.py`).

Python strings are embedded as `List Char`; `chars` converts a Lean string
literal to that representation.  Fallible Python code (statements that can
raise) is embedded with `Except`; everything else is a total function.
Scanning functions that advance by more than one character per step take an
explicit fuel argument (always instantiated with the input length, which is
shown to be sufficient), so that every definition is executable by the kernel.
-/

/-! # Definitions -/

/-- Characters of a string literal, the `List Char` embedding of a Python `str`. -/
def chars (s : String) : List Char := s.data

/-- Whitespace test used throughout (Python's `\s` / `str.strip` class). -/
def isWs (c : Char) : Bool := c.isWhitespace

/-- `leadsWith pat l` is Python's `l.startswith(pat)` for embedded strings. -/
def leadsWith : List Char → List Char → Bool
  | [], _ => true
  | _ :: _, [] => false
  | p :: ps, c :: cs => c = p && leadsWith ps cs

/-- `hasSub pat l` is Python's substring test `pat in l`. -/
def hasSub (pat l : List Char) : Bool :=
  match l with
  | [] => leadsWith pat []
  | _ :: cs => leadsWith pat l || hasSub pat cs

/-- Python's `str.strip()`: drop whitespace from both ends. -/
def trim (l : List Char) : List Char :=
  ((l.dropWhile isWs).reverse.dropWhile isWs).reverse

/-- The output-document append step of `rf_azure_sync_get` (lines 376-394 of
`rf_azure_sync_get.py`): if the existing content is empty, or contains neither
the settings-section marker nor the test-cases-section marker, append the
structural header (`settings_section + test_cases_section`); then append the
newly rendered content if it is non-empty. -/
def appendToOutputDocument (existing robotContent settingsSec testCasesSec : List Char) :
    List Char :=
  let withHeader :=
    if existing = [] || (!hasSub settingsSec existing && !hasSub testCasesSec existing) then
      existing ++ settingsSec ++ testCasesSec
    else existing
  if robotContent = [] then withHeader else withHeader ++ robotContent

/-- The catalog listing of `rf_azure_sync_get.py:139-169`: on HTTP status 200
the set of work-item ids from the Wiql response is returned, on any other
status the empty set is returned (the Python `set` is embedded as the id
list of the response). -/
def get_azure_test_cases (statusCode : Nat) (workItemIds : List Nat) : List Nat :=
  if statusCode = 200 then workItemIds else []

/-- Result of one pull run (`rf_azure_sync_get`): which ids were fetched, the
newly rendered content, and the final output document. -/
structure PullRun where
  fetched : List Nat
  robotContent : List Char
  output : List Char

/-- The pure part of `rf_azure_sync_get` (`rf_azure_sync_get.py:336-394`):
list the remote catalog, subtract the locally known ids, fetch and render each
new id (`render` stands for the per-id fetch-and-render step), and append the
rendered content to the output document. -/
def rf_azure_sync_get_run (statusCode : Nat) (catalogIds robotIds : List Nat)
    (render : Nat → List Char) (existing settingsSec testCasesSec : List Char) : PullRun :=
  let azure := get_azure_test_cases statusCode catalogIds
  let newIds := azure.filter (fun i => !robotIds.contains i)
  let robotContent := (newIds.map render).flatten
  { fetched := newIds
    robotContent := robotContent
    output := appendToOutputDocument existing robotContent settingsSec testCasesSec }

/-- Python's `str.split("\n")`. -/
def splitNl : List Char → List (List Char)
  | [] => [[]]
  | c :: rest =>
    match splitNl rest with
    | [] => [[c]]
    | h :: t => if c = '\n' then [] :: h :: t else (c :: h) :: t

/-- The `current_test_case` dict of `parse_test_cases`
(`rf_azure_sync_patch.py:193-225`): each field is `some` exactly when the
corresponding key (`Title`, `Tags`, `Steps`) is present in the Python dict. -/
structure PyCase where
  title : Option (List Char)
  tags : Option (List Char)
  steps : Option (List (List Char))
deriving DecidableEq

/-- Truthiness of the `current_test_case` dict: non-empty iff any key is set. -/
def pyCaseNonEmpty (c : PyCase) : Bool :=
  c.title.isSome || c.tags.isSome || c.steps.isSome

/-- One loop iteration of `parse_test_cases`: blank lines are skipped, a line
starting with the configured title marker flushes the current case and starts
a new one, a `[tags]` line assigns the `Tags` key (Python dict assignment, so
it succeeds even on the empty dict), and any other line appends to the `Steps`
key - raising `KeyError` (`Except.error`) when that key is absent. -/
def parse_test_cases_step (titleMarker : List Char) (acc : List PyCase × PyCase)
    (rawLine : List Char) : Except Unit (List PyCase × PyCase) :=
  let line := trim rawLine
  if line = [] then .ok acc
  else if leadsWith titleMarker line then
    let flushed := if pyCaseNonEmpty acc.2 then acc.1 ++ [acc.2] else acc.1
    .ok (flushed, ⟨some (trim (line.drop titleMarker.length)), some [], some []⟩)
  else if leadsWith (chars "[tags]") line then
    .ok (acc.1, { acc.2 with tags := some (trim (line.drop (chars "[tags]").length)) })
  else
    match acc.2.steps with
    | none => .error ()
    | some ss => .ok (acc.1, { acc.2 with steps := some (ss ++ [line]) })

/-- `parse_test_cases` of `rf_azure_sync_patch.py:193-225` (identical to the
copy in `rf_azure_sync_get.py:88-120`): split the raw test-cases data into
lines and fold the per-line step over them, flushing the final in-progress
case at end of input.  A Python `KeyError` is embedded as `Except.error`. -/
def parse_test_cases (raw titleMarker : List Char) : Except Unit (List PyCase) := do
  let r ← (splitNl raw).foldlM (parse_test_cases_step titleMarker) ([], ⟨none, none, none⟩)
  pure (if pyCaseNonEmpty r.2 then r.1 ++ [r.2] else r.1)

/-- Decimal digit character (`'0' + d`). -/
def digCh (d : Nat) : Char := Char.ofNat (48 + d)

/-- Fuelled decimal rendering helper. -/
def decGo : Nat → Nat → List Char
  | 0, _ => []
  | fuel + 1, n => if n < 10 then [digCh n] else decGo fuel (n / 10) ++ [digCh (n % 10)]

/-- Decimal rendering of a natural number, Python's `str(int)` as used by the
f-strings of `build_steps_xml`. -/
def decChars (n : Nat) : List Char := decGo (n + 1) n

/-- Python's `enumerate(xs, start=i)`. -/
def enumFrom {α : Type} : Nat → List α → List (Nat × α)
  | _, [] => []
  | i, a :: as => (i, a) :: enumFrom (i + 1) as

/-- `TestStep` of `rf_azure_sync_patch.py:25-54`: the action text and the
description field (`transform_steps` passes the integer step id for the
latter).  `validate` only checks that the action is a string, which the
embedding guarantees by typing. -/
structure TestStep where
  action : List Char
  description : Nat
deriving DecidableEq

/-- `transform_steps` of `rf_azure_sync_patch.py:247-261`: wrap each raw step
line in a `TestStep`, enumerating from 1. -/
def transform_steps (stepsList : List (List Char)) : List TestStep :=
  (enumFrom 1 stepsList).map (fun p => ⟨p.2, p.1⟩)

/-- The fields of the dict produced by `TestStep.to_dict`
(`rf_azure_sync_patch.py:56-80`) that `build_steps_xml` reads. -/
structure StepDict where
  id : Nat
  type : List Char
  action : List Char
  expectedResult : List Char
  description : List Char
deriving DecidableEq

/-- `TestStep.to_dict` (`rf_azure_sync_patch.py:56-80`): wrap the action in the
escaped-markup `parameterizedString` envelope and attach the constant escaped
empty expected-result. -/
def to_dict (t : TestStep) (stepId : Nat) : StepDict :=
  { id := stepId
    type := chars "ActionStep"
    action := chars "<parameterizedString isformatted=\"true\">&lt;P&gt;" ++ t.action ++
      chars "&lt;BR/&gt;&lt;/P&gt;</parameterizedString>"
    expectedResult :=
      chars "<parameterizedString isformatted=\"true\">&lt;DIV&gt;&lt;P&gt;&lt;BR/&gt;&lt;/P&gt;&lt;/DIV&gt;</parameterizedString>"
    description := decChars t.description }

/-- `build_steps_xml` of `rf_azure_sync_patch.py:374-393`: convert each step
to its dict (enumerating from 1), join the per-step XML elements (enumerating
from 1 again for the `id` attribute), and wrap them in the
`<steps id="0" last="N">` envelope where `N` is the number of steps. -/
def build_steps_xml (transformedSteps : List TestStep) : List Char :=
  let testSteps := (enumFrom 1 transformedSteps).map (fun p => to_dict p.2 p.1)
  let body := ((enumFrom 1 testSteps).map (fun p =>
      chars "<step id=\"" ++ decChars p.1 ++ chars "\" type=\"" ++ p.2.type ++ chars "\">" ++
        p.2.action ++ p.2.expectedResult ++ chars "<description/></step>")).flatten
  chars "<steps id=\"0\" last=\"" ++ decChars testSteps.length ++ chars "\">" ++ body ++
    chars "</steps>"

/-- The XML element emitted for one step: id attribute `i`, action line `s`.
Closed form of one element of the `build_steps_xml` join. -/
def stepElem (i : Nat) (s : List Char) : List Char :=
  chars "<step id=\"" ++ decChars i ++ chars "\" type=\"" ++ chars "ActionStep" ++
    chars "\">" ++
    (chars "<parameterizedString isformatted=\"true\">&lt;P&gt;" ++ s ++
      chars "&lt;BR/&gt;&lt;/P&gt;</parameterizedString>") ++
    chars "<parameterizedString isformatted=\"true\">&lt;DIV&gt;&lt;P&gt;&lt;BR/&gt;&lt;/P&gt;&lt;/DIV&gt;</parameterizedString>" ++
    chars "<description/></step>"

/-- Value of a field operation: a string, Python `None`, or the relation dict
of a linked-item `add` op (embedded by its url; the `rel` kind and comment
attribute are constants in `build_linked_items`). -/
inductive OpValue
  | none'
  | str (s : List Char)
  | rel (url : List Char)
deriving DecidableEq

/-- One JSON-patch field operation. -/
structure FieldOp where
  op : List Char
  path : List Char
  value : OpValue
deriving DecidableEq

/-- `build_linked_items` of `rf_azure_sync_patch.py:341-371`: one `add`
relation op per linked work item. -/
def build_linked_items (linkedWorkItems : List (List Char))
    (organizationName projectName : List Char) : List FieldOp :=
  linkedWorkItems.map (fun linkedItem =>
    ⟨chars "add", chars "/relations/-",
      .rel (chars "https://dev.azure.com/" ++ organizationName ++ chars "/" ++ projectName ++
        chars "/_apis/wit/workitems/" ++ linkedItem)⟩)

/-- The final filter of `build_fields` (`rf_azure_sync_patch.py:446`): keep an
op iff its value is neither `None` nor the empty string (relation dicts always
pass). -/
def opValueKept : OpValue → Bool
  | .none' => false
  | .str s => !s.isEmpty
  | .rel _ => true

/-- `build_fields` of `rf_azure_sync_patch.py:396-446`: assemble the candidate
replace ops (automation status, priority, title, steps XML, tags) followed by
the linked-item ops, then drop ops with `None` or empty-string values.  (The
source's `filter(None, ...)` over the candidate list is the identity, since
every element is a non-empty - hence truthy - dict, and is therefore not
modelled separately.) -/
def build_fields (dataTags : OpValue × OpValue × OpValue) (title : List Char)
    (linkedItems : List FieldOp) (transformedSteps : List TestStep) : List FieldOp :=
  let stepsXml := build_steps_xml transformedSteps
  let fields : List FieldOp :=
    [⟨chars "replace", chars "/fields/Custom.AutomationStatus", dataTags.1⟩,
     ⟨chars "replace", chars "/fields/Microsoft.VSTS.Common.Priority", dataTags.2.1⟩,
     ⟨chars "replace", chars "/fields/System.Title", .str title⟩,
     ⟨chars "replace", chars "/fields/Microsoft.VSTS.TCM.Steps", .str stepsXml⟩,
     ⟨chars "replace", chars "/fields/System.Tags", dataTags.2.2⟩] ++ linkedItems
  fields.filter (fun f => opValueKept f.value)

/-- `re.search(prefix + r"\s*([^\s]+)", l)` and its `group(1)`: the leftmost
position where the literal prefix matches and, after greedily skipped
whitespace, a non-empty whitespace-free value follows; `none` when the
pattern matches nowhere. -/
def searchPrefVal (pfx : List Char) : List Char → Option (List Char)
  | [] => none
  | c :: rest =>
    if leadsWith pfx (c :: rest) then
      let v := (((c :: rest).drop pfx.length).dropWhile isWs).takeWhile (fun d => !isWs d)
      if v.isEmpty then searchPrefVal pfx rest else some v
    else searchPrefVal pfx rest

/-- Python's `\w` for the ASCII range: letters, digits and underscore. -/
def isWordChar (c : Char) : Bool := c.isAlphanum || c = '_'

/-- `re.search(prefix + r"\s*([\w\s]+)", l)` and its `group(1)`: after the
literal prefix, the greedy whitespace run and then a non-empty run of
word/whitespace characters; when that run is empty the regex backtracks one
whitespace character out of `\s*` into the group (so the group becomes the
last whitespace character of the run), and fails at this position only when
no whitespace precedes either. -/
def searchWordVal (pfx : List Char) : List Char → Option (List Char)
  | [] => none
  | c :: rest =>
    if leadsWith pfx (c :: rest) then
      let after := (c :: rest).drop pfx.length
      let v := (after.dropWhile isWs).takeWhile (fun d => isWordChar d || isWs d)
      if !v.isEmpty then some v
      else
        match (after.takeWhile isWs).getLast? with
        | some w => some [w]
        | none => searchWordVal pfx rest
    else searchWordVal pfx rest

/-- Python truthiness of an optional string (`None` and `""` are falsy). -/
def pyTruthy : Option (List Char) → Bool
  | none => false
  | some s => !s.isEmpty

/-- `extract_tags_info` of `rf_azure_sync_patch.py:264-307`, applied to the
`Tags` value of a parsed case.  The automation-status extraction reproduces
the operator-precedence slip of the source: the `if match else None` guard
sits inside the second argument of `str.replace`, so when the
automation-status prefix is absent the source evaluates `None.group(1)` and
raises `AttributeError` - embedded as `Except.error`.  The priority and
system-tags extractions are correctly guarded and yield `none` when absent. -/
def extract_tags_info (tags : List Char)
    (pfxAutomationStatus pfxPriority pfxSystemTags : List Char) :
    Except Unit (List Char × Option (List Char) × List Char) :=
  match searchPrefVal pfxAutomationStatus tags with
  | none => .error ()
  | some v =>
    let automationStatusTagKey := (trim v).map (fun c => if c = '_' then ' ' else c)
    let priorityTagKey := (searchPrefVal pfxPriority tags).map trim
    let testTagsKey : Option (List Char) := if tags.isEmpty then none else some (trim tags)
    let systemTagsKey := (searchWordVal pfxSystemTags tags).map trim
    let tagsValue :=
      if pyTruthy testTagsKey && !pyTruthy systemTagsKey then testTagsKey.getD []
      else if pyTruthy systemTagsKey && !pyTruthy testTagsKey then systemTagsKey.getD []
      else if pyTruthy systemTagsKey && pyTruthy testTagsKey then
        testTagsKey.getD [] ++ chars "; " ++ systemTagsKey.getD []
      else []
    .ok (automationStatusTagKey, priorityTagKey, tagsValue)

/-- The separator-and-value stage of one match of the tag regex
`(\S+)\s*(?::|\s)\s*(\S+)` of `parse_tags` (`rf_azure_sync_patch.py:239`):
given the input after the chosen category, return the captured value and the
remaining input.  It follows the backtracking preferences of the Python
engine: the outer `\s*` is greedy, the alternation tries `:` before a
whitespace character, the trailing `\s*` is greedy, and the value `\S+` must
be non-empty.  When the character after the greedy whitespace run is a colon
but no value follows the colon, the engine backtracks one whitespace
character out of the outer `\s*` (possible only when the run is non-empty)
and the value then starts at the colon itself. -/
def sepValueCore (m : Nat) : List Char → Option (List Char × List Char)
  | [] => none
  | c :: r2 =>
    if c = ':' then
      if !((r2.dropWhile isWs).takeWhile (fun d => !isWs d)).isEmpty then
        some ((r2.dropWhile isWs).takeWhile (fun d => !isWs d),
          (r2.dropWhile isWs).dropWhile (fun d => !isWs d))
      else if 1 ≤ m then
        some ((c :: r2).takeWhile (fun d => !isWs d), (c :: r2).dropWhile (fun d => !isWs d))
      else none
    else
      if 1 ≤ m then
        some ((c :: r2).takeWhile (fun d => !isWs d), (c :: r2).dropWhile (fun d => !isWs d))
      else none

/-- The separator-and-value stage applied to the input after the category:
`m` is the length of the greedy leading whitespace run, and the core runs on
the input with that run removed. -/
def sepValue (r : List Char) : Option (List Char × List Char) :=
  sepValueCore (r.takeWhile isWs).length (r.dropWhile isWs)

/-- Category backtracking for one match of the tag regex: the greedy `\S+`
prefers the longest category, so lengths `j, j-1, ..., 1` of the maximal
non-whitespace run `w` at the match position are tried in order; `rest` is
the input after that run. -/
def tryCat : Nat → List Char → List Char → Option (List Char × List Char × List Char)
  | 0, _, _ => none
  | j + 1, w, rest =>
    match sepValue (w.drop (j + 1) ++ rest) with
    | some (v, r) => some (w.take (j + 1), v, r)
    | none => tryCat j w rest

/-- One attempted match of the tag regex at the current position: the
category is a non-empty prefix of the maximal non-whitespace run here. -/
def tryMatch (l : List Char) : Option (List Char × List Char × List Char) :=
  tryCat (l.takeWhile (fun d => !isWs d)).length (l.takeWhile (fun d => !isWs d))
    (l.dropWhile (fun d => !isWs d))

/-- Fuelled `re.findall` scan for the tag regex: attempt a match at every
position from the left, consuming matches non-overlappingly. -/
def findTagsGo : Nat → List Char → List (List Char × List Char)
  | 0, _ => []
  | _ + 1, [] => []
  | fuel + 1, c :: rest =>
    match tryMatch (c :: rest) with
    | some (cat, v, r) => (cat, v) :: findTagsGo fuel r
    | none => findTagsGo fuel rest

/-- `re.findall(r"(\S+)\s*(?::|\s)\s*(\S+)", l)` of `parse_tags`
(`rf_azure_sync_patch.py:239`); the input length is sufficient fuel. -/
def findTagPairs (l : List Char) : List (List Char × List Char) :=
  findTagsGo l.length l

/-- The parsed tag dictionary: insertion-ordered category keys, each with its
ordered list of values. -/
abbrev TagSet := List (List Char × List (List Char))

/-- `tag_dict[category].append(value)` with key creation
(`rf_azure_sync_patch.py:240-243`), preserving key insertion order. -/
def insertTag : TagSet → List Char → List Char → TagSet
  | [], cat, v => [(cat, [v])]
  | (c, vs) :: rest, cat, v =>
    if c = cat then (c, vs ++ [v]) :: rest else (c, vs) :: insertTag rest cat v

/-- Grouping of the found pairs into the insertion-ordered dictionary. -/
def groupPairs (ps : List (List Char × List Char)) : TagSet :=
  ps.foldl (fun d p => insertTag d p.1 p.2) []

/-- `parse_tags` of `rf_azure_sync_patch.py:228-244`. -/
def parse_tags (tagString : List Char) : TagSet :=
  groupPairs (findTagPairs tagString)

/-- Non-overlapping left-to-right pairing of a token list; an unpaired final
token is dropped. -/
def pairUp {α : Type} : List α → List (α × α)
  | a :: b :: rest => (a, b) :: pairUp rest
  | _ => []

/-- A token list joined into one string by non-empty whitespace separators
(the shape of a tag string made of whitespace-separated tokens). -/
inductive SpaceJoined : List (List Char) → List Char → Prop
  | nil : SpaceJoined [] []
  | single (t : List Char) : SpaceJoined [t] t
  | cons (t w : List Char) (rest : List (List Char)) (s : List Char) :
      w ≠ [] → (∀ c ∈ w, isWs c = true) → rest ≠ [] → SpaceJoined rest s →
      SpaceJoined (t :: rest) (t ++ (w ++ s))

/-- A plain token: non-empty, with no whitespace and no colon. -/
def goodTok (t : List Char) : Bool :=
  !t.isEmpty && t.all (fun c => !isWs c && c ≠ ':')

/-- First value stored under a category of a `TagSet` (empty when absent):
the lookup glue taking the parsed tag set to the renderer's field inputs. -/
def firstVal : TagSet → List Char → List Char
  | [], _ => []
  | (c, vs) :: rest, cat => if c = cat then vs.headD [] else firstVal rest cat

/-- The case tag line rendered by `get_tags_line`
(`rf_azure_sync_get.py:219-231`) from a parsed `TagSet` - the spec's
`renderCaseTagLine(parse(tagLine))` composition.  The f-string format,
four-space separators and trailing newline are those of the source, with the
literal prefixes `TestCase`, `AutomationStatus`, `Priority`, `IterationPath`
for the configured tag vocabulary; the work-item fields are absent in this
composition, so `get_tags` and `get_relations_tags` contribute nothing.  The
field inputs are drawn from the `TagSet` by `firstVal`. -/
def render_case_tag_line (ts : TagSet) : List Char :=
  chars "    [tags]  " ++ (chars "TestCase" ++ (chars " " ++ (firstVal ts (chars "TestCase") ++
    (chars "    " ++ (chars "AutomationStatus" ++ (chars " " ++
    (firstVal ts (chars "AutomationStatus") ++ (chars "    " ++ (chars "Priority" ++
    (chars " " ++ (firstVal ts (chars "Priority") ++ (chars "    " ++
    (chars "IterationPath" ++ (chars " " ++ (firstVal ts (chars "IterationPath") ++
    chars "\n")))))))))))))))

/-- Re-parsing of a rendered tag line, as the push pipeline does it
(`parse_test_cases` strips the line, strips the `[tags]` marker and strips
again, `rf_azure_sync_patch.py:219-220`; `parse_tags` then parses the tag
string).  The line is taken without the newline consumed by line splitting,
so re-parsing the full rendered line includes trimming it. -/
def reparse_tag_line (line : List Char) : TagSet :=
  parse_tags (trim ((trim line).drop (chars "[tags]").length))

/-- A tag content string of the well-formed four-category shape produced by
the renderer: the four configured category prefixes, in order, each followed
by a single value. -/
def fourCatTagContent (a b c d : List Char) : List Char :=
  chars "TestCase" ++ (chars " " ++ (a ++ (chars "    " ++ (chars "AutomationStatus" ++
    (chars " " ++ (b ++ (chars "    " ++ (chars "Priority" ++ (chars " " ++ (c ++
    (chars "    " ++ (chars "IterationPath" ++ (chars " " ++ d)))))))))))))

/-- Option-valued literal-prefix removal: the rest of `l` after the literal
`pat`, or `none` when `pat` is not a prefix of `l`. -/
def dropPref : List Char → List Char → Option (List Char)
  | [], l => some l
  | _ :: _, [] => none
  | p :: ps, c :: cs => if c = p then dropPref ps cs else none

/-- Literal pieces of the step-element regex of
`get_steps_and_expected_results` (`rf_azure_sync_get.py:233-243`). -/
def litStepOpen : List Char := chars "<step id=\""

/-- Literal `" type="` of the step-element regex. -/
def litType : List Char := chars "\" type=\""

/-- Literal `">` closing the type attribute. -/
def litQuoteGt : List Char := chars "\">"

/-- Literal opening `parameterizedString` element. -/
def litPString : List Char := chars "<parameterizedString isformatted=\"true\">"

/-- Literal closing `parameterizedString` tag. -/
def litPClose : List Char := chars "</parameterizedString>"

/-- Literal `<description/></step>` tail of the step-element regex. -/
def litDesc : List Char := chars "<description/></step>"

/-- Lazy-group splitting at the first occurrence of a literal: the prefix
before the first occurrence of `pat` and the rest after it (`none` when `pat`
does not occur).  This is the semantics of a lazy `(.*?)` group whose
continuation is the literal `pat` followed by the end of the pattern. -/
def splitAtFirst (pat : List Char) : List Char → Option (List Char × List Char)
  | [] => if pat.isEmpty then some ([], []) else none
  | c :: r =>
    if leadsWith pat (c :: r) then some ([], (c :: r).drop pat.length)
    else
      match splitAtFirst pat r with
      | some (pre, post) => some (c :: pre, post)
      | none => none

/-- Continuation after the first capture group's closing tag: the second
`<parameterizedString isformatted="true">` literal, then the lazy second
group closed by `</parameterizedString><description/></step>`. -/
def afterG1 (l : List Char) : Option (List Char × List Char) :=
  match dropPref litPString l with
  | none => none
  | some l2 => splitAtFirst (litPClose ++ litDesc) l2

/-- The lazy first capture group with backtracking: the shortest prefix
followed by `</parameterizedString>` at which the remainder of the pattern
matches. -/
def parseG1 : List Char → Option (List Char × List Char × List Char)
  | [] => none
  | c :: r =>
    match (if leadsWith litPClose (c :: r) then
        afterG1 ((c :: r).drop litPClose.length)
      else none) with
    | some (g2, rest) => some ([], g2, rest)
    | none =>
      match parseG1 r with
      | some (g1, g2, rest) => some (c :: g1, g2, rest)
      | none => none

/-- The lazy `type=".*?"` group: the shortest prefix followed by `">` at
which the remainder of the pattern matches. -/
def scanType : List Char → Option (List Char × List Char × List Char)
  | [] => none
  | c :: r =>
    match (if leadsWith litQuoteGt (c :: r) then
        (match dropPref litPString ((c :: r).drop litQuoteGt.length) with
         | none => none
         | some l2 => parseG1 l2)
      else none) with
    | some res => some res
    | none => scanType r

/-- One attempted match of the step-element regex at the current position:
the literal `<step id="`, one or more digits (greedy `\d+`), the literal
`" type="`, then the lazy groups. -/
def matchStep (l : List Char) : Option (List Char × List Char × List Char) :=
  match dropPref litStepOpen l with
  | none => none
  | some r1 =>
    if (r1.takeWhile Char.isDigit).isEmpty then none
    else
      match dropPref litType (r1.dropWhile Char.isDigit) with
      | none => none
      | some r2 => scanType r2

/-- Fuelled `re.findall` scan of the step-element regex: attempt a match at
every position from the left, consuming matches non-overlappingly. -/
def findStepsGo : Nat → List Char → List (List Char × List Char)
  | 0, _ => []
  | _ + 1, [] => []
  | fuel + 1, c :: rest =>
    match matchStep (c :: rest) with
    | some (g1, g2, r) => (g1, g2) :: findStepsGo fuel r
    | none => findStepsGo fuel rest

/-- `get_steps_and_expected_results` of `rf_azure_sync_get.py:233-243`:
`re.findall` of the step-element pattern over the raw steps field, returning
the raw (action, expectedResult) capture pairs. -/
def get_steps_and_expected_results (stepsRaw : List Char) : List (List Char × List Char) :=
  findStepsGo stepsRaw.length stepsRaw

/-- End position of the first match of `re.sub`'s pattern `<[^<]+?>` after a
`<`: the minimal index `j ≥ 1` with `rest[j] = '>'` and no `<` among
`rest[0..j-1]` (the scanning index is carried as the second argument). -/
def tagEnd : List Char → Nat → Option Nat
  | [], _ => none
  | c :: r, i =>
    if c = '<' then none
    else if c = '>' && decide (1 ≤ i) then some i
    else tagEnd r (i + 1)

/-- Fuelled `re.sub("<[^<]+?>", "", s)`: remove each leftmost-first markup
tag; a `<` with no well-formed tag end is kept. -/
def stripTagsGo : Nat → List Char → List Char
  | 0, l => l
  | _ + 1, [] => []
  | fuel + 1, c :: rest =>
    if c = '<' then
      match tagEnd rest 0 with
      | some j => stripTagsGo fuel (rest.drop (j + 1))
      | none => c :: stripTagsGo fuel rest
    else c :: stripTagsGo fuel rest

/-- `re.sub("<[^<]+?>", "", l)`; the input length is sufficient fuel. -/
def stripTags (l : List Char) : List Char := stripTagsGo l.length l

/-- Fuelled `html.unescape` restricted to the named character references
produced by this repository's escaped-markup encodings (`&lt;`, `&gt;`,
`&amp;`, `&quot;`); other ampersands are kept as-is.  Modelled from the
spec: the full `html.unescape` table is Python standard-library behaviour
outside this repository, and only these entities occur in the codec's
blobs. -/
def unescapeGo : Nat → List Char → List Char
  | 0, l => l
  | _ + 1, [] => []
  | fuel + 1, c :: rest =>
    if c = '&' then
      if leadsWith (chars "lt;") rest then '<' :: unescapeGo fuel (rest.drop 3)
      else if leadsWith (chars "gt;") rest then '>' :: unescapeGo fuel (rest.drop 3)
      else if leadsWith (chars "amp;") rest then '&' :: unescapeGo fuel (rest.drop 4)
      else if leadsWith (chars "quot;") rest then '"' :: unescapeGo fuel (rest.drop 5)
      else c :: unescapeGo fuel rest
    else c :: unescapeGo fuel rest

/-- `html.unescape` (restricted as documented on `unescapeGo`). -/
def unescape (l : List Char) : List Char := unescapeGo l.length l

/-- Fuelled `str.replace(pat, "")` for a non-empty literal pattern: remove
every occurrence, scanning left to right without rescanning removed spans. -/
def removeAllGo (pat : List Char) : Nat → List Char → List Char
  | 0, l => l
  | _ + 1, [] => []
  | fuel + 1, c :: rest =>
    if leadsWith pat (c :: rest) then removeAllGo pat fuel ((c :: rest).drop pat.length)
    else c :: removeAllGo pat fuel rest

/-- `str.replace(pat, "")`; the input length is sufficient fuel. -/
def removeAll (pat l : List Char) : List Char := removeAllGo pat l.length l

/-- The per-step cleanup of `create_robot_content`
(`rf_azure_sync_get.py:283-287`): strip, remove markup tags, unescape
entities, then remove the `P`/`DIV`/`BR` wrappers in the source's order. -/
def clean_step (s : List Char) : List Char :=
  removeAll (chars "<BR/>") (removeAll (chars "<BR>") (removeAll (chars "</DIV>")
    (removeAll (chars "<DIV>") (removeAll (chars "</P>") (removeAll (chars "<P>")
      (unescape (stripTags (trim s))))))))

/-- The decode direction of the rich-text codec: regex extraction of the
(action, expectedResult) capture pairs, the decode-side cleanup applied to
both components, and removal of steps whose cleaned action is empty
(`rf_azure_sync_get.py:280-290`; the source loop cleans the action and
discards the expected-result unrendered, which the pair view expresses by
cleaning both components). -/
def decode_steps (blob : List Char) : List (List Char × List Char) :=
  ((get_steps_and_expected_results blob).map
    (fun p => (clean_step p.1, clean_step p.2))).filter (fun p => !p.1.isEmpty)

/-- The escaped `<P>` opening the encoded action text (`TestStep.to_dict`). -/
def escP : List Char := chars "&lt;P&gt;"

/-- The escaped `<BR/></P>` closing the encoded action text. -/
def escBR : List Char := chars "&lt;BR/&gt;&lt;/P&gt;"

/-- The escaped constant expected-result body of `TestStep.to_dict`. -/
def escDIV : List Char := chars "&lt;DIV&gt;&lt;P&gt;&lt;BR/&gt;&lt;/P&gt;&lt;/DIV&gt;"

/-! # Theorems -/

theorem hasSub_nil_of_ne {pat : List Char} (h : pat ≠ []) : hasSub pat [] = false := by
  cases pat with
  | nil => exact absurd rfl h
  | cons p ps => rfl

/-- Helper: with non-empty markers, a document containing one of the markers is
left unchanged by the append step when there is no new content. -/
theorem appendToOutputDocument_unchanged (doc settingsSec testCasesSec : List Char)
    (hs : settingsSec ≠ []) (ht : testCasesSec ≠ [])
    (h : hasSub settingsSec doc = true ∨ hasSub testCasesSec doc = true) :
    appendToOutputDocument doc [] settingsSec testCasesSec = doc := by
  have hdoc : doc ≠ [] := by
    intro hd
    subst hd
    rcases h with h | h
    · rw [hasSub_nil_of_ne hs] at h; exact Bool.false_ne_true h
    · rw [hasSub_nil_of_ne ht] at h; exact Bool.false_ne_true h
  unfold appendToOutputDocument
  have hcond : (decide (doc = []) || (!hasSub settingsSec doc && !hasSub testCasesSec doc)) = false := by
    rcases h with h | h <;> simp [hdoc, h]
  simp [hcond]

/-- C1: the pull-direction append step is idempotent.  For every existing
document that already contains the (non-empty) settings-section marker or the
(non-empty) test-cases-section marker, appending with no newly rendered
content leaves the document byte-for-byte unchanged; applying the step twice
gives, after the second application, exactly the content produced by the
first, so the structural header is never inserted twice. -/
theorem append_to_output_document_idempotent
    (doc settingsSec testCasesSec : List Char)
    (hs : settingsSec ≠ []) (ht : testCasesSec ≠ [])
    (h : hasSub settingsSec doc = true ∨ hasSub testCasesSec doc = true) :
    appendToOutputDocument doc [] settingsSec testCasesSec = doc ∧
    appendToOutputDocument (appendToOutputDocument doc [] settingsSec testCasesSec) []
        settingsSec testCasesSec =
      appendToOutputDocument doc [] settingsSec testCasesSec := by
  have h1 := appendToOutputDocument_unchanged doc settingsSec testCasesSec hs ht h
  refine ⟨h1, ?_⟩
  rw [h1, h1]

/-- C1 witness: a concrete document containing the settings marker is left
unchanged by two successive append steps with no new content. -/
theorem append_to_output_document_idempotent_witness :
    chars "*** Settings ***" ≠ [] ∧ chars "*** Test Cases ***" ≠ [] ∧
    (hasSub (chars "*** Settings ***") (chars "*** Settings ***X") = true ∨
      hasSub (chars "*** Test Cases ***") (chars "*** Settings ***X") = true) ∧
    appendToOutputDocument (chars "*** Settings ***X") [] (chars "*** Settings ***")
        (chars "*** Test Cases ***") = chars "*** Settings ***X" :=
  ⟨by decide, by decide, Or.inl (by decide),
    (append_to_output_document_idempotent (chars "*** Settings ***X")
      (chars "*** Settings ***") (chars "*** Test Cases ***")
      (by decide) (by decide) (Or.inl (by decide))).1⟩

/-- C10: when the catalog request returns a non-200 status,
`get_azure_test_cases` yields the empty set, so the pull run fetches nothing,
renders nothing, and (for a document already carrying the structural header)
leaves the output document unchanged; the failure is not surfaced. -/
theorem get_run_silent_catalog_degradation
    (statusCode : Nat) (hstatus : statusCode ≠ 200)
    (catalogIds robotIds : List Nat) (render : Nat → List Char)
    (doc settingsSec testCasesSec : List Char)
    (hs : settingsSec ≠ []) (ht : testCasesSec ≠ [])
    (hmark : hasSub settingsSec doc = true ∨ hasSub testCasesSec doc = true) :
    get_azure_test_cases statusCode catalogIds = [] ∧
    (rf_azure_sync_get_run statusCode catalogIds robotIds render doc settingsSec
        testCasesSec).fetched = [] ∧
    (rf_azure_sync_get_run statusCode catalogIds robotIds render doc settingsSec
        testCasesSec).robotContent = [] ∧
    (rf_azure_sync_get_run statusCode catalogIds robotIds render doc settingsSec
        testCasesSec).output = doc := by
  have hempty : get_azure_test_cases statusCode catalogIds = [] := by
    unfold get_azure_test_cases
    simp [hstatus]
  refine ⟨hempty, ?_, ?_, ?_⟩ <;>
    simp [rf_azure_sync_get_run, hempty,
      appendToOutputDocument_unchanged doc settingsSec testCasesSec hs ht hmark]

/-- C10 witness: a concrete failed catalog listing (status 500) leaves a
concrete header-carrying document untouched and fetches nothing. -/
theorem get_run_silent_catalog_degradation_witness :
    (500 : Nat) ≠ 200 ∧
    (rf_azure_sync_get_run 500 [1, 2] [3] (fun _ => chars "x")
        (chars "*** Settings ***X") (chars "*** Settings ***")
        (chars "*** Test Cases ***")).output = chars "*** Settings ***X" :=
  ⟨by decide,
    (get_run_silent_catalog_degradation 500 (by decide) [1, 2] [3] (fun _ => chars "x")
      (chars "*** Settings ***X") (chars "*** Settings ***") (chars "*** Test Cases ***")
      (by decide) (by decide) (Or.inl (by decide))).2.2.2⟩

/-- C5 counterexample: the document `"foo"` has no line starting with the
title marker `"TC:"`, yet `parse_test_cases` raises a `KeyError`
(appending a step line while the current-case dict has no `Steps` key)
instead of returning an empty sequence. -/
theorem parse_test_cases_counterexample :
    (∀ line ∈ splitNl (chars "foo"), leadsWith (chars "TC:") line = false) ∧
    parse_test_cases (chars "foo") (chars "TC:") = .error () := by
  constructor
  · decide
  · rfl

/-- Helper: folding the per-line parser over blank lines leaves the
accumulator unchanged. -/
theorem parse_step_blank_fold (titleMarker : List Char) :
    ∀ (lines : List (List Char)) (acc : List PyCase × PyCase),
      (∀ l ∈ lines, trim l = []) →
      lines.foldlM (parse_test_cases_step titleMarker) acc = .ok acc := by
  intro lines
  induction lines with
  | nil => intro acc _; rfl
  | cons l ls ih =>
    intro acc h
    have hl : trim l = [] := h l (List.mem_cons_self l ls)
    have hstep : parse_test_cases_step titleMarker acc l = .ok acc := by
      unfold parse_test_cases_step
      simp [hl]
    rw [List.foldlM_cons, hstep]
    exact ih acc (fun m hm => h m (List.mem_cons_of_mem l hm))

/-- C5 amended: `parse_test_cases` returns the empty sequence, without error,
on every document all of whose lines are blank (whitespace-only); in
particular a marker-free blank document yields an empty sequence.  (A
marker-free document with a non-blank step-like line instead raises
`KeyError`, and one with a `[tags]` line yields a spurious record, as the
counterexample shows.) -/
theorem parse_test_cases_blank_total (raw titleMarker : List Char)
    (h : ∀ line ∈ splitNl raw, trim line = []) :
    parse_test_cases raw titleMarker = .ok [] := by
  unfold parse_test_cases
  rw [parse_step_blank_fold titleMarker (splitNl raw) ([], ⟨none, none, none⟩) h]
  rfl

/-- C5 witness: a concrete all-blank document parses to the empty sequence. -/
theorem parse_test_cases_blank_total_witness :
    (∀ line ∈ splitNl (chars "  \n \n"), trim line = []) ∧
    parse_test_cases (chars "  \n \n") (chars "TC:") = .ok [] :=
  ⟨by decide, parse_test_cases_blank_total (chars "  \n \n") (chars "TC:") (by decide)⟩

theorem enumFrom_map {α β : Type} (f : α → β) :
    ∀ (xs : List α) (i : Nat),
      enumFrom i (xs.map f) = (enumFrom i xs).map (fun p => (p.1, f p.2)) := by
  intro xs
  induction xs with
  | nil => intro i; rfl
  | cons a as ih =>
    intro i
    simp only [List.map_cons, enumFrom, ih]

theorem enumFrom_self {α : Type} :
    ∀ (xs : List α) (i : Nat),
      enumFrom i (enumFrom i xs) = (enumFrom i xs).map (fun p => (p.1, p)) := by
  intro xs
  induction xs with
  | nil => intro i; rfl
  | cons a as ih =>
    intro i
    simp only [enumFrom, List.map_cons, ih]

theorem enumFrom_eq_zip_range' {α : Type} :
    ∀ (xs : List α) (i : Nat), enumFrom i xs = (List.range' i xs.length).zip xs := by
  intro xs
  induction xs with
  | nil => intro i; rfl
  | cons a as ih =>
    intro i
    simp only [enumFrom, List.length_cons, List.range'_succ, List.zip_cons_cons, ih]

theorem enumFrom_length {α : Type} :
    ∀ (xs : List α) (i : Nat), (enumFrom i xs).length = xs.length := by
  intro xs
  induction xs with
  | nil => intro i; rfl
  | cons a as ih => intro i; simp [enumFrom, ih]

/-- Helper: closed form of the encoder - the blob is the envelope around the
join of `stepElem` elements with consecutive ids from 1. -/
theorem build_steps_xml_flatten (lines : List (List Char)) :
    build_steps_xml (transform_steps lines) =
      chars "<steps id=\"0\" last=\"" ++ decChars lines.length ++ chars "\">" ++
        (((List.range' 1 lines.length).zip lines).map (fun p => stepElem p.1 p.2)).flatten ++
        chars "</steps>" := by
  unfold build_steps_xml transform_steps
  dsimp only
  simp only [enumFrom_map, enumFrom_self, List.map_map, List.length_map, enumFrom_length]
  rw [enumFrom_eq_zip_range']
  rfl

/-- C4 amended: the encoder emits, for a list of `n` action lines, exactly `n`
self-closing step elements whose id attributes are the consecutive integers
1, 2, ..., n (not 2, ..., n+1 as claimed), wrapped in a
`<steps id="0" last="N">` envelope where `N = n` equals the final assigned
step identifier. -/
theorem build_steps_xml_numbering (lines : List (List Char)) :
    build_steps_xml (transform_steps lines) =
      chars "<steps id=\"0\" last=\"" ++ decChars lines.length ++ chars "\">" ++
        (((List.range' 1 lines.length).zip lines).map (fun p => stepElem p.1 p.2)).flatten ++
        chars "</steps>" :=
  build_steps_xml_flatten lines

set_option maxRecDepth 4000 in
/-- C4 counterexample: for the two action lines `step1`, `step2` the encoder
stamps the first step element with id 1 (the substring `<step id="1"` occurs)
and assigns no id 3, contradicting the claimed numbering 2, 3. -/
theorem build_steps_xml_ids_counterexample :
    hasSub (chars "<step id=\"1\"")
        (build_steps_xml (transform_steps [chars "step1", chars "step2"])) = true ∧
    hasSub (chars "<step id=\"3\"")
        (build_steps_xml (transform_steps [chars "step1", chars "step2"])) = false := by
  constructor
  · decide
  · decide

/-- C7 counterexample: for a record with empty title (and no linked items) the
patch builder does not fail any precondition - it produces a non-empty
field-op sequence in which the `/fields/System.Title` replace op was silently
dropped by the emptiness filter. -/
theorem build_fields_empty_title_counterexample :
    build_fields (.str (chars "Automated"), .str (chars "2"), .str (chars "Tags"))
        [] (build_linked_items [] (chars "org") (chars "proj")) [] =
      [⟨chars "replace", chars "/fields/Custom.AutomationStatus", .str (chars "Automated")⟩,
       ⟨chars "replace", chars "/fields/Microsoft.VSTS.Common.Priority", .str (chars "2")⟩,
       ⟨chars "replace", chars "/fields/Microsoft.VSTS.TCM.Steps",
         .str (chars "<steps id=\"0\" last=\"0\"></steps>")⟩,
       ⟨chars "replace", chars "/fields/System.Tags", .str (chars "Tags")⟩] := by
  rfl

/-- C7 amended: for a record with empty title the builder emits no
`/fields/System.Title` op at all (the empty-value replace op is filtered out;
no precondition failure is raised), and for a record with no linked story/bug
ids it emits zero `add` relation ops. -/
theorem build_fields_empty_title_omits (dataTags : OpValue × OpValue × OpValue)
    (transformedSteps : List TestStep) (organizationName projectName : List Char) :
    ∀ f ∈ build_fields dataTags []
        (build_linked_items [] organizationName projectName) transformedSteps,
      f.path ≠ chars "/fields/System.Title" ∧ f.op ≠ chars "add" := by
  intro f hf
  have hlink : build_linked_items [] organizationName projectName = [] := rfl
  rw [hlink] at hf
  unfold build_fields at hf
  rw [List.mem_filter] at hf
  obtain ⟨hmem, hkept⟩ := hf
  simp only [List.append_nil, List.mem_cons, List.not_mem_nil, or_false] at hmem
  rcases hmem with h | h | h | h | h <;> subst h
  · exact ⟨show chars "/fields/Custom.AutomationStatus" ≠ chars "/fields/System.Title"
      by decide, show chars "replace" ≠ chars "add" by decide⟩
  · exact ⟨show chars "/fields/Microsoft.VSTS.Common.Priority" ≠ chars "/fields/System.Title"
      by decide, show chars "replace" ≠ chars "add" by decide⟩
  · exact absurd hkept (by decide)
  · exact ⟨show chars "/fields/Microsoft.VSTS.TCM.Steps" ≠ chars "/fields/System.Title"
      by decide, show chars "replace" ≠ chars "add" by decide⟩
  · exact ⟨show chars "/fields/System.Tags" ≠ chars "/fields/System.Title"
      by decide, show chars "replace" ≠ chars "add" by decide⟩

/-- C7 witness: the steps-XML op is a member of a concrete empty-title result,
and the amended theorem applies to it. -/
theorem build_fields_empty_title_omits_witness :
    (⟨chars "replace", chars "/fields/Microsoft.VSTS.TCM.Steps",
        .str (chars "<steps id=\"0\" last=\"0\"></steps>")⟩ : FieldOp) ∈
      build_fields (.str (chars "A"), .str (chars "2"), .str (chars "T")) []
        (build_linked_items [] (chars "org") (chars "proj")) [] ∧
    (⟨chars "replace", chars "/fields/Microsoft.VSTS.TCM.Steps",
        (.str (chars "<steps id=\"0\" last=\"0\"></steps>") : OpValue)⟩ : FieldOp).path ≠
        chars "/fields/System.Title" :=
  ⟨by decide,
    (build_fields_empty_title_omits (.str (chars "A"), .str (chars "2"), .str (chars "T"))
      [] (chars "org") (chars "proj") _ (by decide)).1⟩

/-- C6: the tag line `Priority 2` does not contain the automation-status
prefix, so its extraction finds no match - and `extract_tags_info` then
raises `AttributeError` (evaluating `None.group(1)`, the operator-precedence
slip flagged in the design notes) instead of returning a no-value result.
The spec's fail-soft contract is the evident intent, so this is a code bug. -/
theorem extract_tags_info_missing_status_raises :
    searchPrefVal (chars "AutomationStatus") (chars "Priority 2") = none ∧
    extract_tags_info (chars "Priority 2") (chars "AutomationStatus")
        (chars "Priority") (chars "SystemTags") = .error () := by
  constructor
  · rfl
  · rfl


theorem takeWhile_append_of_all {p : Char → Bool} :
    ∀ (a b : List Char), (∀ c ∈ a, p c = true) →
      (a ++ b).takeWhile p = a ++ b.takeWhile p := by
  intro a
  induction a with
  | nil => intro b _; rfl
  | cons c a' ih =>
    intro b h
    have hc : p c = true := h c (List.mem_cons_self c a')
    simp only [List.cons_append, List.takeWhile_cons_of_pos hc]
    rw [ih b (fun d hd => h d (List.mem_cons_of_mem c hd))]

theorem dropWhile_append_of_all {p : Char → Bool} :
    ∀ (a b : List Char), (∀ c ∈ a, p c = true) →
      (a ++ b).dropWhile p = b.dropWhile p := by
  intro a
  induction a with
  | nil => intro b _; rfl
  | cons c a' ih =>
    intro b h
    have hc : p c = true := h c (List.mem_cons_self c a')
    simp only [List.cons_append, List.dropWhile_cons_of_pos hc]
    exact ih b (fun d hd => h d (List.mem_cons_of_mem c hd))

theorem takeWhile_eq_nil_of_all {p : Char → Bool} (l : List Char)
    (h : ∀ c ∈ l, p c = false) : l.takeWhile p = [] := by
  cases l with
  | nil => rfl
  | cons c l' =>
    have := h c (List.mem_cons_self c l')
    simp [List.takeWhile_cons, this]

theorem dropWhile_eq_nil_of_all {p : Char → Bool} :
    ∀ (l : List Char), (∀ c ∈ l, p c = true) → l.dropWhile p = [] := by
  intro l
  induction l with
  | nil => intro _; rfl
  | cons c l' ih =>
    intro h
    rw [List.dropWhile_cons_of_pos (h c (List.mem_cons_self c l'))]
    exact ih (fun d hd => h d (List.mem_cons_of_mem c hd))

theorem length_dropWhile_le' (p : Char → Bool) :
    ∀ (l : List Char), (l.dropWhile p).length ≤ l.length := by
  intro l
  induction l with
  | nil => exact Nat.le_refl _
  | cons c l' ih =>
    rw [List.dropWhile_cons]
    split
    · exact Nat.le_trans ih (Nat.le_succ _)
    · exact Nat.le_refl _

theorem length_takeWhile_add_dropWhile (p : Char → Bool) (l : List Char) :
    (l.takeWhile p).length + (l.dropWhile p).length = l.length := by
  have h : l.takeWhile p ++ l.dropWhile p = l := by simp
  calc (l.takeWhile p).length + (l.dropWhile p).length
      = (l.takeWhile p ++ l.dropWhile p).length := (List.length_append _ _).symm
    _ = l.length := by rw [h]

theorem sepValueCore_rest_lt {m : Nat} {c : Char} {r2 v rest : List Char}
    (hcws : isWs c = false) (h : sepValueCore m (c :: r2) = some (v, rest)) :
    rest.length < r2.length + 1 := by
  have hstep : (c :: r2).dropWhile (fun d => !isWs d) = r2.dropWhile (fun d => !isWs d) :=
    List.dropWhile_cons_of_pos (by simp [hcws])
  simp only [sepValueCore] at h
  split_ifs at h with hc hv hm hm <;>
    simp only [Option.some.injEq, Prod.mk.injEq] at h <;>
    obtain ⟨-, hrest⟩ := h <;> subst hrest
  · calc ((r2.dropWhile isWs).dropWhile fun d => !isWs d).length
        ≤ (r2.dropWhile isWs).length := length_dropWhile_le' _ _
      _ ≤ r2.length := length_dropWhile_le' _ _
      _ < r2.length + 1 := Nat.lt_succ_self _
  · rw [hstep]
    exact Nat.lt_succ_of_le (length_dropWhile_le' _ _)
  · rw [hstep]
    exact Nat.lt_succ_of_le (length_dropWhile_le' _ _)

theorem sepValue_rest_lt {r v rest : List Char} (h : sepValue r = some (v, rest)) :
    rest.length < r.length := by
  unfold sepValue at h
  rcases hd : r.dropWhile isWs with _ | ⟨c, r2⟩
  · rw [hd] at h; simp [sepValueCore] at h
  · rw [hd] at h
    have hcws : isWs c = false := by
      have h2 := List.head?_dropWhile_not isWs r
      rw [hd] at h2
      simpa using h2
    have hlt := sepValueCore_rest_lt hcws h
    have hle : r2.length + 1 ≤ r.length := by
      have h1 : (r.dropWhile isWs).length ≤ r.length := length_dropWhile_le' isWs r
      rw [hd] at h1
      simpa using h1
    omega

theorem tryCat_rest_lt :
    ∀ (j : Nat) (w rest : List Char) {cat v r : List Char},
      tryCat j w rest = some (cat, v, r) → r.length < w.length + rest.length := by
  intro j
  induction j with
  | zero => intro w rest cat v r h; simp [tryCat] at h
  | succ j ih =>
    intro w rest cat v r h
    simp only [tryCat] at h
    rcases hs : sepValue (w.drop (j + 1) ++ rest) with _ | ⟨v', r'⟩
    · rw [hs] at h
      exact ih w rest h
    · rw [hs] at h
      simp only [Option.some.injEq, Prod.mk.injEq] at h
      obtain ⟨-, -, hr⟩ := h
      subst hr
      have := sepValue_rest_lt hs
      rw [List.length_append, List.length_drop] at this
      omega

theorem tryMatch_rest_lt {l cat v r : List Char} (h : tryMatch l = some (cat, v, r)) :
    r.length < l.length := by
  unfold tryMatch at h
  have := tryCat_rest_lt _ _ _ h
  have hsum := length_takeWhile_add_dropWhile (fun d => !isWs d) l
  omega

theorem findTagsGo_fuel :
    ∀ (n : Nat) (l : List Char) (f : Nat), l.length ≤ n → l.length ≤ f →
      findTagsGo f l = findTagsGo l.length l := by
  intro n
  induction n with
  | zero =>
    intro l f hn _
    have : l = [] := List.eq_nil_of_length_eq_zero (Nat.le_zero.mp hn)
    subst this
    cases f <;> rfl
  | succ n ih =>
    intro l f hn hf
    cases l with
    | nil => cases f <;> rfl
    | cons c rest =>
      have hf1 : 1 ≤ f := Nat.le_trans (Nat.succ_le_succ (Nat.zero_le _)) hf
      obtain ⟨f', rfl⟩ : ∃ f', f = f' + 1 :=
        ⟨f - 1, (Nat.succ_pred_eq_of_pos hf1).symm⟩
      simp only [List.length_cons] at hn hf
      rcases hm : tryMatch (c :: rest) with _ | ⟨cat, v, r⟩
      · show findTagsGo (f' + 1) (c :: rest) = findTagsGo (rest.length + 1) (c :: rest)
        simp only [findTagsGo, hm]
        rw [ih rest f' (by omega) (by omega), ih rest rest.length (by omega) (Nat.le_refl _)]
      · have hr : r.length < rest.length + 1 := tryMatch_rest_lt hm
        show findTagsGo (f' + 1) (c :: rest) = findTagsGo (rest.length + 1) (c :: rest)
        simp only [findTagsGo, hm]
        rw [ih r f' (by omega) (by omega), ih r rest.length (by omega) (by omega)]

theorem findTagPairs_match {l cat v r : List Char} (h : tryMatch l = some (cat, v, r)) :
    findTagPairs l = (cat, v) :: findTagPairs r := by
  cases l with
  | nil => simp [tryMatch, tryCat] at h
  | cons c rest =>
    have hr : r.length < rest.length + 1 := tryMatch_rest_lt h
    show findTagsGo (rest.length + 1) (c :: rest) = (cat, v) :: findTagPairs r
    simp only [findTagsGo, h]
    rw [findTagsGo_fuel rest.length r rest.length (by omega) (by omega)]
    rfl

theorem findTagPairs_skip {c : Char} {l : List Char} (h : tryMatch (c :: l) = none) :
    findTagPairs (c :: l) = findTagPairs l := by
  show findTagsGo (l.length + 1) (c :: l) = findTagPairs l
  simp only [findTagsGo, h]
  rfl

theorem tryMatch_ws {c : Char} {l : List Char} (hc : isWs c = true) :
    tryMatch (c :: l) = none := by
  unfold tryMatch
  rw [List.takeWhile_cons_of_neg (by simp [hc])]
  rfl

theorem findTagPairs_ws_prefix :
    ∀ (w s : List Char), (∀ c ∈ w, isWs c = true) → findTagPairs (w ++ s) = findTagPairs s := by
  intro w
  induction w with
  | nil => intro s _; rfl
  | cons c w' ih =>
    intro s h
    rw [List.cons_append, findTagPairs_skip (tryMatch_ws (h c (List.mem_cons_self c w')))]
    exact ih s (fun d hd => h d (List.mem_cons_of_mem c hd))

theorem goodTok_spec {t : List Char} (h : goodTok t = true) :
    t ≠ [] ∧ ∀ c ∈ t, isWs c = false ∧ c ≠ ':' := by
  unfold goodTok at h
  rw [Bool.and_eq_true, List.all_eq_true] at h
  obtain ⟨h1, h2⟩ := h
  refine ⟨by simpa using h1, fun c hc => ?_⟩
  have := h2 c hc
  rw [Bool.and_eq_true] at this
  exact ⟨by simpa using this.1, by simpa using this.2⟩

theorem tryCat_none_token :
    ∀ (j : Nat) (u rest : List Char),
      (∀ c ∈ u, isWs c = false ∧ c ≠ ':') → (∀ c ∈ rest, isWs c = true) →
      tryCat j u rest = none := by
  intro j
  induction j with
  | zero => intro u rest _ _; rfl
  | succ j ih =>
    intro u rest hu hrest
    simp only [tryCat]
    have hsep : sepValue (u.drop (j + 1) ++ rest) = none := by
      rcases hd : u.drop (j + 1) with _ | ⟨d, u''⟩
      · unfold sepValue
        rw [List.nil_append, dropWhile_eq_nil_of_all rest hrest]
        rfl
      · have hdu : d ∈ u := by
          have : d ∈ u.drop (j + 1) := by rw [hd]; exact List.mem_cons_self d u''
          exact List.mem_of_mem_drop this
        obtain ⟨hdw, hdc⟩ := hu d hdu
        unfold sepValue
        rw [List.cons_append, List.takeWhile_cons_of_neg (by simp [hdw]),
          List.dropWhile_cons_of_neg (by simp [hdw])]
        simp only [sepValueCore, List.length_nil, if_neg hdc]
        norm_num
    rw [hsep]
    exact ih u rest hu hrest

theorem findTagPairs_token_ws :
    ∀ (u w : List Char),
      (∀ c ∈ u, isWs c = false ∧ c ≠ ':') → (∀ c ∈ w, isWs c = true) →
      findTagPairs (u ++ w) = [] := by
  intro u
  induction u with
  | nil =>
    intro w _ hw
    rw [List.nil_append, ← List.append_nil w, findTagPairs_ws_prefix w [] hw]
    rfl
  | cons c u' ih =>
    intro w hu hw
    have hc := hu c (List.mem_cons_self c u')
    have hu' : ∀ d ∈ u', isWs d = false ∧ d ≠ ':' :=
      fun d hd => hu d (List.mem_cons_of_mem c hd)
    have hdw : w.dropWhile (fun d => !isWs d) = w := by
      cases w with
      | nil => rfl
      | cons d w'' =>
        exact List.dropWhile_cons_of_neg (by simp [hw d (List.mem_cons_self d w'')])
    have htm : tryMatch ((c :: u') ++ w) = none := by
      unfold tryMatch
      rw [List.cons_append,
        List.takeWhile_cons_of_pos (by simp [hc.1]),
        List.dropWhile_cons_of_pos (by simp [hc.1]),
        takeWhile_append_of_all u' w (fun d hd => by simp [(hu' d hd).1]),
        dropWhile_append_of_all u' w (fun d hd => by simp [(hu' d hd).1]),
        takeWhile_eq_nil_of_all w (fun d hd => by simp [hw d hd]), hdw]
      rw [List.append_nil]
      exact tryCat_none_token _ (c :: u') _ hu hw
    rw [List.cons_append]
    rw [findTagPairs_skip (show tryMatch (c :: (u' ++ w)) = none from htm)]
    exact ih w hu' hw

theorem sepValue_sep (w t2 r' : List Char)
    (hw : w ≠ []) (hws : ∀ c ∈ w, isWs c = true) (ht : goodTok t2 = true)
    (hr : r' = [] ∨ ∃ d r'', r' = d :: r'' ∧ isWs d = true) :
    sepValue (w ++ (t2 ++ r')) = some (t2, r') := by
  obtain ⟨ht2ne, ht2⟩ := goodTok_spec ht
  obtain ⟨e, t2', rfl⟩ : ∃ e t2', t2 = e :: t2' := by
    cases t2 with
    | nil => exact absurd rfl ht2ne
    | cons e t2' => exact ⟨e, t2', rfl⟩
  have he := ht2 e (List.mem_cons_self e t2')
  have hnw : ∀ c ∈ e :: t2', (!isWs c) = true := fun c hc => by simp [(ht2 c hc).1]
  have htwr' : r'.takeWhile (fun d => !isWs d) = [] := by
    rcases hr with rfl | ⟨d, r'', rfl, hd⟩
    · rfl
    · exact List.takeWhile_cons_of_neg (by simp [hd])
  have hdwr' : r'.dropWhile (fun d => !isWs d) = r' := by
    rcases hr with rfl | ⟨d, r'', rfl, hd⟩
    · rfl
    · exact List.dropWhile_cons_of_neg (by simp [hd])
  have hTW : (w ++ ((e :: t2') ++ r')).takeWhile isWs = w := by
    rw [takeWhile_append_of_all w _ hws, List.cons_append,
      List.takeWhile_cons_of_neg (by simp [he.1]), List.append_nil]
  have hDW : (w ++ ((e :: t2') ++ r')).dropWhile isWs = (e :: t2') ++ r' := by
    rw [dropWhile_append_of_all w _ hws, List.cons_append,
      List.dropWhile_cons_of_neg (by simp [he.1])]
  unfold sepValue
  rw [hTW, hDW, List.cons_append]
  simp only [sepValueCore, if_neg he.2]
  rw [if_pos (show 1 ≤ w.length by
    cases w with
    | nil => exact absurd rfl hw
    | cons a w' => exact Nat.succ_le_succ (Nat.zero_le _))]
  rw [← List.cons_append, takeWhile_append_of_all _ _ hnw,
    dropWhile_append_of_all _ _ hnw, htwr', hdwr', List.append_nil]

theorem tryMatch_sep (t1 w t2 r' : List Char)
    (h1 : goodTok t1 = true) (hw : w ≠ []) (hws : ∀ c ∈ w, isWs c = true)
    (h2 : goodTok t2 = true)
    (hr : r' = [] ∨ ∃ d r'', r' = d :: r'' ∧ isWs d = true) :
    tryMatch (t1 ++ (w ++ (t2 ++ r'))) = some (t1, t2, r') := by
  obtain ⟨h1ne, h1c⟩ := goodTok_spec h1
  have hnw1 : ∀ c ∈ t1, (!isWs c) = true := fun c hc => by simp [(h1c c hc).1]
  obtain ⟨d0, w', rfl⟩ : ∃ d0 w', w = d0 :: w' := by
    cases w with
    | nil => exact absurd rfl hw
    | cons d0 w' => exact ⟨d0, w', rfl⟩
  have hd0 : isWs d0 = true := hws d0 (List.mem_cons_self d0 w')
  have hTW : (t1 ++ ((d0 :: w') ++ (t2 ++ r'))).takeWhile (fun d => !isWs d) = t1 := by
    rw [takeWhile_append_of_all t1 _ hnw1, List.cons_append,
      List.takeWhile_cons_of_neg (by simp [hd0]), List.append_nil]
  have hDW : (t1 ++ ((d0 :: w') ++ (t2 ++ r'))).dropWhile (fun d => !isWs d) =
      (d0 :: w') ++ (t2 ++ r') := by
    rw [dropWhile_append_of_all t1 _ hnw1, List.cons_append,
      List.dropWhile_cons_of_neg (by simp [hd0])]
  unfold tryMatch
  rw [hTW, hDW]
  obtain ⟨k, hk⟩ : ∃ k, t1.length = k + 1 := by
    cases t1 with
    | nil => exact absurd rfl h1ne
    | cons a t1' => exact ⟨t1'.length, by simp⟩
  rw [hk]
  simp only [tryCat]
  rw [show t1.drop (k + 1) = [] from by rw [← hk]; exact List.drop_length t1,
    List.nil_append,
    sepValue_sep (d0 :: w') t2 r' (by simp) hws h2 hr,
    show t1.take (k + 1) = t1 from by rw [← hk]; exact List.take_length t1]

theorem spaceJoined_nil {s : List Char} (h : SpaceJoined [] s) : s = [] := by
  cases h
  rfl

theorem spaceJoined_cons {t : List Char} {rest : List (List Char)} {s : List Char}
    (h : SpaceJoined (t :: rest) s) :
    (rest = [] ∧ s = t) ∨
      ∃ w s', w ≠ [] ∧ (∀ c ∈ w, isWs c = true) ∧ rest ≠ [] ∧ SpaceJoined rest s' ∧
        s = t ++ (w ++ s') := by
  cases h with
  | single _ => exact Or.inl ⟨rfl, rfl⟩
  | cons _ w _ s' hw hws hr hj => exact Or.inr ⟨w, s', hw, hws, hr, hj, rfl⟩

theorem findTagPairs_joined_aux :
    ∀ (n : Nat) (ts : List (List Char)) (s : List Char),
      ts.length ≤ n → SpaceJoined ts s → (∀ t ∈ ts, goodTok t = true) →
      findTagPairs s = pairUp ts := by
  intro n
  induction n with
  | zero =>
    intro ts s hn hj _
    have : ts = [] := List.eq_nil_of_length_eq_zero (Nat.le_zero.mp hn)
    subst this
    rw [spaceJoined_nil hj]
    rfl
  | succ n ih =>
    intro ts s hn hj hg
    cases ts with
    | nil =>
      rw [spaceJoined_nil hj]
      rfl
    | cons t rest =>
      have hgt : goodTok t = true := hg t (List.mem_cons_self t rest)
      rcases spaceJoined_cons hj with ⟨hrest, hst⟩ | ⟨w, s', hw, hws, hrest, hj', hst⟩
      · subst hrest
        have := goodTok_spec hgt
        rw [hst, show t = t ++ ([] : List Char) from (List.append_nil t).symm,
          findTagPairs_token_ws t [] this.2 (by intro c hc; cases hc)]
        rfl
      · cases rest with
        | nil => exact absurd rfl hrest
        | cons t2 rest' =>
          have hgt2 : goodTok t2 = true :=
            hg t2 (List.mem_cons_of_mem t (List.mem_cons_self t2 rest'))
          rcases spaceJoined_cons hj' with ⟨hrest', hst'⟩ | ⟨w2, s'', hw2, hws2, hrest'', hj'', hst'⟩
          · subst hrest'
            have hm : tryMatch (t ++ (w ++ (t2 ++ []))) = some (t, t2, []) :=
              tryMatch_sep t w t2 [] hgt hw hws hgt2 (Or.inl rfl)
            rw [List.append_nil] at hm
            rw [hst, hst', findTagPairs_match hm]
            rfl
          · have hr2shape : w2 ++ s'' = [] ∨
                ∃ d r'', w2 ++ s'' = d :: r'' ∧ isWs d = true := by
              cases w2 with
              | nil => exact absurd rfl hw2
              | cons d w2' =>
                exact Or.inr ⟨d, w2' ++ s'', rfl,
                  hws2 d (List.mem_cons_self d w2')⟩
            have hm : tryMatch (t ++ (w ++ (t2 ++ (w2 ++ s'')))) =
                some (t, t2, w2 ++ s'') :=
              tryMatch_sep t w t2 (w2 ++ s'') hgt hw hws hgt2 hr2shape
            rw [hst, hst', findTagPairs_match hm, findTagPairs_ws_prefix w2 s'' hws2]
            have hlen : rest'.length ≤ n := by
              simp only [List.length_cons] at hn
              omega
            rw [ih rest' s'' hlen hj''
              (fun u hu => hg u (List.mem_cons_of_mem t (List.mem_cons_of_mem t2 hu)))]
            rfl

/-- Helper: `findTagPairs` pairs whitespace-separated plain tokens
non-overlappingly from the left, dropping an unpaired final token. -/
theorem findTagPairs_joined {ts : List (List Char)} {s : List Char}
    (hj : SpaceJoined ts s) (hg : ∀ t ∈ ts, goodTok t = true) :
    findTagPairs s = pairUp ts :=
  findTagPairs_joined_aux ts.length ts s (Nat.le_refl _) hj hg

theorem pairUp_avoid_aux :
    ∀ (n : Nat) (l : List (List Char)) (x : List Char),
      l.length ≤ n → l.length % 2 = 1 → (∀ t ∈ l.dropLast, t ≠ x) →
      ∀ p ∈ pairUp l, p.1 ≠ x ∧ p.2 ≠ x := by
  intro n
  induction n with
  | zero =>
    intro l x hn hodd _
    have : l = [] := List.eq_nil_of_length_eq_zero (Nat.le_zero.mp hn)
    subst this
    simp at hodd
  | succ n ih =>
    intro l x hn hodd hfresh
    match l with
    | [] => simp at hodd
    | [a] => intro p hp; simp [pairUp] at hp
    | a :: b :: rest =>
      have hrodd : rest.length % 2 = 1 := by
        simp only [List.length_cons] at hodd
        omega
      have hrne : rest ≠ [] := by
        intro hr
        rw [hr] at hrodd
        simp at hrodd
      have hdl : (a :: b :: rest).dropLast = a :: b :: rest.dropLast := by
        cases rest with
        | nil => exact absurd rfl hrne
        | cons r rs => rfl
      rw [hdl] at hfresh
      intro p hp
      rcases List.mem_cons.mp hp with hpe | hpm
      · subst hpe
        exact ⟨hfresh a (List.mem_cons_self _ _),
          hfresh b (List.mem_cons_of_mem _ (List.mem_cons_self _ _))⟩
      · have hlen : rest.length ≤ n := by
          simp only [List.length_cons] at hn
          omega
        exact ih rest x hlen hrodd
          (fun u hu => hfresh u (List.mem_cons_of_mem _ (List.mem_cons_of_mem _ hu)))
          p hpm

theorem insertTag_avoid {x : List Char} :
    ∀ (d : TagSet) (cat v : List Char),
      (∀ q ∈ d, q.1 ≠ x ∧ x ∉ q.2) → cat ≠ x → v ≠ x →
      ∀ q ∈ insertTag d cat v, q.1 ≠ x ∧ x ∉ q.2 := by
  intro d
  induction d with
  | nil =>
    intro cat v _ hcat hv q hq
    simp only [insertTag, List.mem_singleton] at hq
    subst hq
    refine ⟨hcat, ?_⟩
    simp only [List.mem_singleton]
    exact fun h => hv h.symm
  | cons e d' ih =>
    intro cat v hd hcat hv q hq
    obtain ⟨c0, vs0⟩ := e
    simp only [insertTag] at hq
    by_cases hc : c0 = cat
    · rw [if_pos hc] at hq
      rcases List.mem_cons.mp hq with hqe | hqm
      · subst hqe
        have he := hd (c0, vs0) (List.mem_cons_self _ _)
        refine ⟨he.1, ?_⟩
        intro hmem
        rcases List.mem_append.mp hmem with h | h
        · exact he.2 h
        · rw [List.mem_singleton] at h
          exact hv h.symm
      · exact hd q (List.mem_cons_of_mem _ hqm)
    · rw [if_neg hc] at hq
      rcases List.mem_cons.mp hq with hqe | hqm
      · subst hqe
        exact hd (c0, vs0) (List.mem_cons_self _ _)
      · exact ih cat v (fun r hr => hd r (List.mem_cons_of_mem _ hr)) hcat hv q hqm

theorem groupPairs_fold_avoid {x : List Char} :
    ∀ (ps : List (List Char × List Char)) (d : TagSet),
      (∀ q ∈ d, q.1 ≠ x ∧ x ∉ q.2) → (∀ p ∈ ps, p.1 ≠ x ∧ p.2 ≠ x) →
      ∀ q ∈ ps.foldl (fun d p => insertTag d p.1 p.2) d, q.1 ≠ x ∧ x ∉ q.2 := by
  intro ps
  induction ps with
  | nil => intro d hd _ q hq; exact hd q hq
  | cons p ps' ih =>
    intro d hd hps q hq
    rw [List.foldl_cons] at hq
    have hp := hps p (List.mem_cons_self _ _)
    exact ih (insertTag d p.1 p.2)
      (insertTag_avoid d p.1 p.2 hd hp.1 hp.2)
      (fun r hr => hps r (List.mem_cons_of_mem _ hr)) q hq

/-- C9: for a tag string of whitespace-separated, colon-free plain tokens
`t1 ... tk`, `parse_tags` pairs the tokens non-overlappingly from left to
right - `t1` is a category with value `t2`, `t3` a category with value `t4`,
and so on - and when `k` is odd the final unpaired token (when distinct from
the earlier tokens) appears neither as a category key nor in any category's
value list of the resulting tag set. -/
theorem parse_tags_pairwise {ts : List (List Char)} {s : List Char}
    (hj : SpaceJoined ts s) (hg : ∀ t ∈ ts, goodTok t = true) :
    findTagPairs s = pairUp ts ∧
    parse_tags s = groupPairs (pairUp ts) ∧
    (ts.length % 2 = 1 →
      ∀ tk, ts.getLast? = some tk → (∀ t ∈ ts.dropLast, t ≠ tk) →
        ∀ q ∈ parse_tags s, q.1 ≠ tk ∧ tk ∉ q.2) := by
  have hpairs := findTagPairs_joined hj hg
  refine ⟨hpairs, ?_, ?_⟩
  · unfold parse_tags
    rw [hpairs]
  · intro hodd tk _ hfresh q hq
    unfold parse_tags at hq
    rw [hpairs] at hq
    exact groupPairs_fold_avoid (pairUp ts) [] (by intro r hr; cases hr)
      (pairUp_avoid_aux ts.length ts tk (Nat.le_refl _) hodd hfresh) q hq

/-- C9 witness: the three tokens `a b c` parse to the single pair `(a, b)`,
the odd final token `c` being dropped and absent from the tag set. -/
theorem parse_tags_pairwise_witness :
    (∀ t ∈ [chars "a", chars "b", chars "c"], goodTok t = true) ∧
    findTagPairs (chars "a b c") = pairUp [chars "a", chars "b", chars "c"] ∧
    parse_tags (chars "a b c") = [(chars "a", [chars "b"])] := by
  have hj : SpaceJoined [chars "a", chars "b", chars "c"] (chars "a b c") := by
    have h1 : SpaceJoined [chars "c"] (chars "c") := SpaceJoined.single _
    have h2 : SpaceJoined [chars "b", chars "c"] (chars "b" ++ (chars " " ++ chars "c")) :=
      SpaceJoined.cons _ (chars " ") _ _ (by decide) (by decide) (by simp) h1
    have h3 : SpaceJoined [chars "a", chars "b", chars "c"]
        (chars "a" ++ (chars " " ++ (chars "b" ++ (chars " " ++ chars "c")))) :=
      SpaceJoined.cons _ (chars " ") _ _ (by decide) (by decide) (by simp) h2
    exact h3
  have hg : ∀ t ∈ [chars "a", chars "b", chars "c"], goodTok t = true := by decide
  have h := parse_tags_pairwise hj hg
  refine ⟨hg, h.1, ?_⟩
  rw [h.2.1]
  decide

theorem rtrim_ws_suffix {y w : List Char} (hw : ∀ c ∈ w, isWs c = true) :
    ((y ++ w).reverse.dropWhile isWs).reverse = (y.reverse.dropWhile isWs).reverse := by
  rw [List.reverse_append,
    dropWhile_append_of_all w.reverse y.reverse
      (fun c hc => hw c (List.mem_reverse.mp hc))]

theorem rtrim_nonws_end {y d : List Char} (hd : d ≠ []) (hnd : ∀ c ∈ d, isWs c = false) :
    ((y ++ d).reverse.dropWhile isWs).reverse = y ++ d := by
  rcases List.eq_nil_or_concat d with rfl | ⟨d0, e, rfl⟩
  · exact absurd rfl hd
  · have he : isWs e = false := hnd e (by simp)
    rw [List.concat_eq_append]
    rw [← List.append_assoc, List.reverse_append, List.reverse_singleton,
      List.singleton_append, List.dropWhile_cons_of_neg (by simp [he])]
    simp [List.reverse_append]

set_option maxRecDepth 8000 in
/-- C2 counterexample: for the tag line `Foo bar`, rendering the parsed tag
set through the case-tag-line renderer and re-parsing the rendered line does
not reproduce the original tag set: the `Foo` category is lost and the
rendered category prefixes pair up with each other instead. -/
theorem render_reparse_counterexample :
    parse_tags (chars "Foo bar") = [(chars "Foo", [chars "bar"])] ∧
    reparse_tag_line (render_case_tag_line (parse_tags (chars "Foo bar"))) =
      [(chars "TestCase", [chars "AutomationStatus"]),
       (chars "Priority", [chars "IterationPath"])] ∧
    reparse_tag_line (render_case_tag_line (parse_tags (chars "Foo bar"))) ≠
      parse_tags (chars "Foo bar") := by
  refine ⟨by decide, by decide, by decide⟩

/-- C2 amended: the tag-grammar round trip holds for tag lines of the
well-formed four-category shape produced by the renderer - the four
configured category prefixes, each with a single plain-token value.  For such
a line, rendering the parsed tag set back through the case-tag-line renderer
and re-parsing the rendered line (stripping and removing the `[tags]` marker
as the push pipeline does) yields exactly the original tag set: the same
insertion-ordered categories with the same ordered value lists.  (For
arbitrary tag lines the round trip fails, as the counterexample shows.) -/
theorem render_reparse_roundtrip (a b c d : List Char)
    (ha : goodTok a = true) (hb : goodTok b = true)
    (hc : goodTok c = true) (hd : goodTok d = true) :
    reparse_tag_line (render_case_tag_line (parse_tags (fourCatTagContent a b c d))) =
      parse_tags (fourCatTagContent a b c d) := by
  have j8 : SpaceJoined [d] d := SpaceJoined.single d
  have j7 : SpaceJoined [chars "IterationPath", d]
      (chars "IterationPath" ++ (chars " " ++ d)) :=
    SpaceJoined.cons _ (chars " ") _ _ (by decide) (by decide) (by simp) j8
  have j6 : SpaceJoined [c, chars "IterationPath", d]
      (c ++ (chars "    " ++ (chars "IterationPath" ++ (chars " " ++ d)))) :=
    SpaceJoined.cons _ (chars "    ") _ _ (by decide) (by decide) (by simp) j7
  have j5 : SpaceJoined [chars "Priority", c, chars "IterationPath", d]
      (chars "Priority" ++ (chars " " ++
        (c ++ (chars "    " ++ (chars "IterationPath" ++ (chars " " ++ d)))))) :=
    SpaceJoined.cons _ (chars " ") _ _ (by decide) (by decide) (by simp) j6
  have j4 : SpaceJoined [b, chars "Priority", c, chars "IterationPath", d]
      (b ++ (chars "    " ++ (chars "Priority" ++ (chars " " ++
        (c ++ (chars "    " ++ (chars "IterationPath" ++ (chars " " ++ d)))))))) :=
    SpaceJoined.cons _ (chars "    ") _ _ (by decide) (by decide) (by simp) j5
  have j3 : SpaceJoined
      [chars "AutomationStatus", b, chars "Priority", c, chars "IterationPath", d]
      (chars "AutomationStatus" ++ (chars " " ++
        (b ++ (chars "    " ++ (chars "Priority" ++ (chars " " ++
        (c ++ (chars "    " ++ (chars "IterationPath" ++ (chars " " ++ d)))))))))) :=
    SpaceJoined.cons _ (chars " ") _ _ (by decide) (by decide) (by simp) j4
  have j2 : SpaceJoined
      [a, chars "AutomationStatus", b, chars "Priority", c, chars "IterationPath", d]
      (a ++ (chars "    " ++ (chars "AutomationStatus" ++ (chars " " ++
        (b ++ (chars "    " ++ (chars "Priority" ++ (chars " " ++
        (c ++ (chars "    " ++ (chars "IterationPath" ++ (chars " " ++ d)))))))))))) :=
    SpaceJoined.cons _ (chars "    ") _ _ (by decide) (by decide) (by simp) j3
  have hj : SpaceJoined
      [chars "TestCase", a, chars "AutomationStatus", b, chars "Priority", c,
        chars "IterationPath", d]
      (fourCatTagContent a b c d) :=
    SpaceJoined.cons _ (chars " ") _ _ (by decide) (by decide) (by simp) j2
  have hg : ∀ t ∈ [chars "TestCase", a, chars "AutomationStatus", b, chars "Priority",
      c, chars "IterationPath", d], goodTok t = true := by
    intro t ht
    simp only [List.mem_cons, List.not_mem_nil, or_false] at ht
    rcases ht with rfl | rfl | rfl | rfl | rfl | rfl | rfl | rfl
    · decide
    · exact ha
    · decide
    · exact hb
    · decide
    · exact hc
    · decide
    · exact hd
  have hpairs := findTagPairs_joined hj hg
  have hA : parse_tags (fourCatTagContent a b c d) =
      [(chars "TestCase", [a]), (chars "AutomationStatus", [b]),
       (chars "Priority", [c]), (chars "IterationPath", [d])] := by
    unfold parse_tags
    rw [hpairs]
    rfl
  obtain ⟨hdne, hdall⟩ := goodTok_spec hd
  have hdnw : ∀ e ∈ d, isWs e = false := fun e he => (hdall e he).1
  rw [hA]
  unfold reparse_tag_line
  have e3 : trim (render_case_tag_line
      [(chars "TestCase", [a]), (chars "AutomationStatus", [b]),
       (chars "Priority", [c]), (chars "IterationPath", [d])]) =
      (chars "[tags]  TestCase " ++ a ++ chars "    AutomationStatus " ++ b ++
        chars "    Priority " ++ c ++ chars "    IterationPath ") ++ d := by
    have e1 : render_case_tag_line
        [(chars "TestCase", [a]), (chars "AutomationStatus", [b]),
         (chars "Priority", [c]), (chars "IterationPath", [d])] =
        chars "    " ++ (chars "[tags]" ++ (chars "  " ++
          (chars "TestCase" ++ (chars " " ++ (a ++ (chars "    " ++
          (chars "AutomationStatus" ++ (chars " " ++ (b ++ (chars "    " ++
          (chars "Priority" ++ (chars " " ++ (c ++ (chars "    " ++
          (chars "IterationPath" ++ (chars " " ++ (d ++ chars "\n"))))))))))))))))) := rfl
    have hflat : chars "[tags]" ++ (chars "  " ++
        (chars "TestCase" ++ (chars " " ++ (a ++ (chars "    " ++
        (chars "AutomationStatus" ++ (chars " " ++ (b ++ (chars "    " ++
        (chars "Priority" ++ (chars " " ++ (c ++ (chars "    " ++
        (chars "IterationPath" ++ (chars " " ++ (d ++ chars "\n")))))))))))))))) =
        ((chars "[tags]  TestCase " ++ a ++ chars "    AutomationStatus " ++ b ++
          chars "    Priority " ++ c ++ chars "    IterationPath ") ++ d) ++
          chars "\n" := by
      simp only [List.append_assoc]
      rfl
    unfold trim
    rw [e1, dropWhile_append_of_all (chars "    ") _ (by decide)]
    rw [show (chars "[tags]" ++ (chars "  " ++
        (chars "TestCase" ++ (chars " " ++ (a ++ (chars "    " ++
        (chars "AutomationStatus" ++ (chars " " ++ (b ++ (chars "    " ++
        (chars "Priority" ++ (chars " " ++ (c ++ (chars "    " ++
        (chars "IterationPath" ++ (chars " " ++ (d ++ chars "\n"))))))))))))))))).dropWhile
        isWs = chars "[tags]" ++ (chars "  " ++
        (chars "TestCase" ++ (chars " " ++ (a ++ (chars "    " ++
        (chars "AutomationStatus" ++ (chars " " ++ (b ++ (chars "    " ++
        (chars "Priority" ++ (chars " " ++ (c ++ (chars "    " ++
        (chars "IterationPath" ++ (chars " " ++ (d ++ chars "\n"))))))))))))))))
      from List.dropWhile_cons_of_neg (by decide)]
    rw [hflat, rtrim_ws_suffix (by decide), rtrim_nonws_end hdne hdnw]
  rw [e3]
  have e4 : (((chars "[tags]  TestCase " ++ a ++ chars "    AutomationStatus " ++ b ++
      chars "    Priority " ++ c ++ chars "    IterationPath ") ++ d)).drop
      (chars "[tags]").length =
      chars "  TestCase " ++ (a ++ (chars "    AutomationStatus " ++ (b ++
        (chars "    Priority " ++ (c ++ (chars "    IterationPath " ++ d)))))) := by
    rw [show ((chars "[tags]  TestCase " ++ a ++ chars "    AutomationStatus " ++ b ++
        chars "    Priority " ++ c ++ chars "    IterationPath ") ++ d) =
        chars "[tags]" ++ (chars "  TestCase " ++ (a ++ (chars "    AutomationStatus " ++
          (b ++ (chars "    Priority " ++ (c ++ (chars "    IterationPath " ++ d)))))))
      from by simp only [List.append_assoc]; rfl]
    exact List.drop_left _ _
  rw [e4]
  have e5 : trim (chars "  TestCase " ++ (a ++ (chars "    AutomationStatus " ++ (b ++
      (chars "    Priority " ++ (c ++ (chars "    IterationPath " ++ d))))))) =
      fourCatTagContent a b c d := by
    unfold trim
    rw [show (chars "  TestCase " ++ (a ++ (chars "    AutomationStatus " ++ (b ++
        (chars "    Priority " ++ (c ++ (chars "    IterationPath " ++ d))))))) =
        chars "  " ++ (chars "TestCase " ++ (a ++ (chars "    AutomationStatus " ++
          (b ++ (chars "    Priority " ++ (c ++ (chars "    IterationPath " ++ d)))))))
      from rfl]
    rw [dropWhile_append_of_all (chars "  ") _ (by decide)]
    rw [show (chars "TestCase " ++ (a ++ (chars "    AutomationStatus " ++
        (b ++ (chars "    Priority " ++ (c ++ (chars "    IterationPath " ++ d))))))).dropWhile
        isWs = chars "TestCase " ++ (a ++ (chars "    AutomationStatus " ++
        (b ++ (chars "    Priority " ++ (c ++ (chars "    IterationPath " ++ d))))))
      from List.dropWhile_cons_of_neg (by decide)]
    rw [show (chars "TestCase " ++ (a ++ (chars "    AutomationStatus " ++
        (b ++ (chars "    Priority " ++ (c ++ (chars "    IterationPath " ++ d))))))) =
        (chars "TestCase " ++ a ++ chars "    AutomationStatus " ++ b ++
          chars "    Priority " ++ c ++ chars "    IterationPath ") ++ d
      from by simp only [List.append_assoc]]
    rw [rtrim_nonws_end hdne hdnw]
    unfold fourCatTagContent
    simp only [List.append_assoc]
    rfl
  rw [e5, hA]

/-- C2 witness: the round trip at a concrete well-formed tag line with values
`42`, `Automated`, `2`, `Sprint_1`. -/
theorem render_reparse_roundtrip_witness :
    goodTok (chars "42") = true ∧ goodTok (chars "Automated") = true ∧
    goodTok (chars "2") = true ∧ goodTok (chars "Sprint_1") = true ∧
    reparse_tag_line (render_case_tag_line (parse_tags
        (fourCatTagContent (chars "42") (chars "Automated") (chars "2")
          (chars "Sprint_1")))) =
      parse_tags (fourCatTagContent (chars "42") (chars "Automated") (chars "2")
        (chars "Sprint_1")) :=
  ⟨by decide, by decide, by decide, by decide,
    render_reparse_roundtrip _ _ _ _ (by decide) (by decide) (by decide) (by decide)⟩

theorem matchStep_none_of_ne_lt {c : Char} {l : List Char} (hc : c ≠ '<') :
    matchStep (c :: l) = none := by
  unfold matchStep
  rw [show litStepOpen = '<' :: chars "step id=\"" from rfl]
  simp [dropPref, hc]

theorem findStepsGo_none_of_no_lt :
    ∀ (fuel : Nat) (l : List Char), (∀ c ∈ l, c ≠ '<') → findStepsGo fuel l = [] := by
  intro fuel
  induction fuel with
  | zero => intro l _; rfl
  | succ fuel ih =>
    intro l h
    cases l with
    | nil => rfl
    | cons c rest =>
      show findStepsGo (fuel + 1) (c :: rest) = []
      simp only [findStepsGo, matchStep_none_of_ne_lt (h c (List.mem_cons_self c rest))]
      exact ih rest (fun d hd => h d (List.mem_cons_of_mem c hd))

/-- C8: a malformed rich-text steps blob that cannot be tag-stripped at all
(it contains no markup `<` whatsoever) decodes to the empty step list - the
dedicated decode-failure result, under which the record's steps render empty
- rather than raising any parse exception: the decoder is a total function
and `re.findall` simply finds no step element. -/
theorem decode_steps_malformed_empty (blob : List Char) (h : ∀ c ∈ blob, c ≠ '<') :
    get_steps_and_expected_results blob = [] ∧ decode_steps blob = [] := by
  have h1 : get_steps_and_expected_results blob = [] := findStepsGo_none_of_no_lt _ _ h
  refine ⟨h1, ?_⟩
  unfold decode_steps
  rw [h1]
  rfl

/-- C8 witness: a concrete markup-free blob decodes to the empty step list. -/
theorem decode_steps_malformed_empty_witness :
    (∀ c ∈ chars "plain text, not steps at all", c ≠ '<') ∧
    decode_steps (chars "plain text, not steps at all") = [] :=
  ⟨by decide, (decode_steps_malformed_empty (chars "plain text, not steps at all")
    (by decide)).2⟩

theorem length_drop_le'' (n : Nat) (l : List Char) : (l.drop n).length ≤ l.length := by
  rw [List.length_drop]
  omega

theorem dropPref_length :
    ∀ {pat l r : List Char}, dropPref pat l = some r → r.length + pat.length = l.length := by
  intro pat
  induction pat with
  | nil =>
    intro l r h
    simp only [dropPref, Option.some.injEq] at h
    subst h
    simp
  | cons p ps ih =>
    intro l r h
    cases l with
    | nil => simp [dropPref] at h
    | cons c cs =>
      simp only [dropPref] at h
      by_cases hc : c = p
      · rw [if_pos hc] at h
        have := ih h
        simp only [List.length_cons]
        omega
      · rw [if_neg hc] at h
        simp at h

theorem dropPref_append : ∀ (p x : List Char), dropPref p (p ++ x) = some x := by
  intro p
  induction p with
  | nil => intro x; rfl
  | cons a ps ih =>
    intro x
    simp only [List.cons_append, dropPref, if_pos rfl]
    exact ih x

theorem leadsWith_refl_append : ∀ (p x : List Char), leadsWith p (p ++ x) = true := by
  intro p
  induction p with
  | nil => intro x; rfl
  | cons a ps ih =>
    intro x
    simp [leadsWith, ih x]

theorem splitAtFirst_le {pat : List Char} :
    ∀ {l pre post : List Char}, splitAtFirst pat l = some (pre, post) →
      post.length ≤ l.length := by
  intro l
  induction l with
  | nil =>
    intro pre post h
    simp only [splitAtFirst] at h
    by_cases hp : pat.isEmpty
    · rw [if_pos hp] at h
      simp only [Option.some.injEq, Prod.mk.injEq] at h
      obtain ⟨-, h2⟩ := h
      subst h2
      exact Nat.le_refl _
    · rw [if_neg hp] at h
      simp at h
  | cons c r ih =>
    intro pre post h
    simp only [splitAtFirst] at h
    by_cases hl : leadsWith pat (c :: r) = true
    · rw [if_pos hl] at h
      simp only [Option.some.injEq, Prod.mk.injEq] at h
      obtain ⟨-, h2⟩ := h
      subst h2
      exact length_drop_le'' pat.length (c :: r)
    · rw [if_neg hl] at h
      rcases hs : splitAtFirst pat r with _ | ⟨pre', post'⟩
      · rw [hs] at h; simp at h
      · rw [hs] at h
        simp only [Option.some.injEq, Prod.mk.injEq] at h
        obtain ⟨-, h2⟩ := h
        subst h2
        exact Nat.le_trans (ih hs) (Nat.le_succ _)

theorem afterG1_le {l g2 rest : List Char} (h : afterG1 l = some (g2, rest)) :
    rest.length ≤ l.length := by
  unfold afterG1 at h
  rcases hd : dropPref litPString l with _ | l2
  · rw [hd] at h; simp at h
  · rw [hd] at h
    simp only at h
    have h1 := splitAtFirst_le h
    have h2 := dropPref_length hd
    omega

theorem parseG1_le :
    ∀ {l g1 g2 rest : List Char}, parseG1 l = some (g1, g2, rest) →
      rest.length ≤ l.length := by
  intro l
  induction l with
  | nil => intro g1 g2 rest h; simp [parseG1] at h
  | cons c r ih =>
    intro g1 g2 rest h
    simp only [parseG1] at h
    by_cases hl : leadsWith litPClose (c :: r) = true
    · rw [if_pos hl] at h
      rcases ha : afterG1 ((c :: r).drop litPClose.length) with _ | ⟨g2', rest'⟩
      · rw [ha] at h
        simp only at h
        rcases hp : parseG1 r with _ | ⟨⟨g1', g2', rest'⟩⟩
        · rw [hp] at h; simp at h
        · rw [hp] at h
          simp only [Option.some.injEq, Prod.mk.injEq] at h
          obtain ⟨-, -, h3⟩ := h
          subst h3
          exact Nat.le_trans (ih hp) (Nat.le_succ _)
      · rw [ha] at h
        simp only [Option.some.injEq, Prod.mk.injEq] at h
        obtain ⟨-, -, h3⟩ := h
        subst h3
        have h1 := afterG1_le ha
        have h2 := length_drop_le'' litPClose.length (c :: r)
        omega
    · rw [if_neg hl] at h
      simp only at h
      rcases hp : parseG1 r with _ | ⟨⟨g1', g2', rest'⟩⟩
      · rw [hp] at h; simp at h
      · rw [hp] at h
        simp only [Option.some.injEq, Prod.mk.injEq] at h
        obtain ⟨-, -, h3⟩ := h
        subst h3
        exact Nat.le_trans (ih hp) (Nat.le_succ _)

theorem scanType_le :
    ∀ {l g1 g2 rest : List Char}, scanType l = some (g1, g2, rest) →
      rest.length ≤ l.length := by
  intro l
  induction l with
  | nil => intro g1 g2 rest h; simp [scanType] at h
  | cons c r ih =>
    intro g1 g2 rest h
    simp only [scanType] at h
    by_cases hl : leadsWith litQuoteGt (c :: r) = true
    · rw [if_pos hl] at h
      rcases hd : dropPref litPString ((c :: r).drop litQuoteGt.length) with _ | l2
      · rw [hd] at h
        simp only at h
        exact Nat.le_trans (ih h) (Nat.le_succ _)
      · rw [hd] at h
        simp only at h
        rcases hp : parseG1 l2 with _ | ⟨⟨g1', g2', rest'⟩⟩
        · rw [hp] at h
          simp only at h
          exact Nat.le_trans (ih h) (Nat.le_succ _)
        · rw [hp] at h
          simp only [Option.some.injEq, Prod.mk.injEq] at h
          obtain ⟨-, -, h3⟩ := h
          subst h3
          have h1 := parseG1_le hp
          have h2 := dropPref_length hd
          have h3 := length_drop_le'' litQuoteGt.length (c :: r)
          omega
    · rw [if_neg hl] at h
      simp only at h
      exact Nat.le_trans (ih h) (Nat.le_succ _)

theorem matchStep_lt :
    ∀ {l g1 g2 r : List Char}, matchStep l = some (g1, g2, r) → r.length < l.length := by
  intro l g1 g2 r h
  unfold matchStep at h
  rcases hd : dropPref litStepOpen l with _ | r1
  · rw [hd] at h; simp at h
  · rw [hd] at h
    simp only at h
    have hlen1 := dropPref_length hd
    by_cases hdig : (r1.takeWhile Char.isDigit).isEmpty = true
    · rw [if_pos hdig] at h; simp at h
    · rw [if_neg hdig] at h
      rcases hd2 : dropPref litType (r1.dropWhile Char.isDigit) with _ | r2
      · rw [hd2] at h; simp at h
      · rw [hd2] at h
        simp only at h
        have h1 := scanType_le h
        have h2 := dropPref_length hd2
        have h3 := length_dropWhile_le' Char.isDigit r1
        have hpos : 0 < litStepOpen.length := by decide
        omega

theorem findStepsGo_fuel :
    ∀ (n : Nat) (l : List Char) (f : Nat), l.length ≤ n → l.length ≤ f →
      findStepsGo f l = findStepsGo l.length l := by
  intro n
  induction n with
  | zero =>
    intro l f hn _
    have : l = [] := List.eq_nil_of_length_eq_zero (Nat.le_zero.mp hn)
    subst this
    cases f <;> rfl
  | succ n ih =>
    intro l f hn hf
    cases l with
    | nil => cases f <;> rfl
    | cons c rest =>
      have hf1 : 1 ≤ f := Nat.le_trans (Nat.succ_le_succ (Nat.zero_le _)) hf
      obtain ⟨f', rfl⟩ : ∃ f', f = f' + 1 :=
        ⟨f - 1, (Nat.succ_pred_eq_of_pos hf1).symm⟩
      simp only [List.length_cons] at hn hf
      rcases hm : matchStep (c :: rest) with _ | ⟨g1, g2, r⟩
      · show findStepsGo (f' + 1) (c :: rest) = findStepsGo (rest.length + 1) (c :: rest)
        simp only [findStepsGo, hm]
        rw [ih rest f' (by omega) (by omega), ih rest rest.length (by omega) (Nat.le_refl _)]
      · have hr : r.length < rest.length + 1 := matchStep_lt hm
        show findStepsGo (f' + 1) (c :: rest) = findStepsGo (rest.length + 1) (c :: rest)
        simp only [findStepsGo, hm]
        rw [ih r f' (by omega) (by omega), ih r rest.length (by omega) (by omega)]

theorem findSteps_match {l g1 g2 r : List Char} (h : matchStep l = some (g1, g2, r)) :
    get_steps_and_expected_results l = (g1, g2) :: get_steps_and_expected_results r := by
  cases l with
  | nil => simp [matchStep, dropPref, litStepOpen, chars] at h
  | cons c rest =>
    have hr : r.length < rest.length + 1 := matchStep_lt h
    show findStepsGo (rest.length + 1) (c :: rest) = (g1, g2) :: get_steps_and_expected_results r
    simp only [findStepsGo, h]
    rw [findStepsGo_fuel rest.length r rest.length (by omega) (by omega)]
    rfl

theorem findSteps_skip {c : Char} {l : List Char} (h : matchStep (c :: l) = none) :
    get_steps_and_expected_results (c :: l) = get_steps_and_expected_results l := by
  show findStepsGo (l.length + 1) (c :: l) = get_steps_and_expected_results l
  simp only [findStepsGo, h]
  rfl

theorem findSteps_skip_nolt :
    ∀ (a b : List Char), (∀ c ∈ a, c ≠ '<') →
      get_steps_and_expected_results (a ++ b) = get_steps_and_expected_results b := by
  intro a
  induction a with
  | nil => intro b _; rfl
  | cons c a' ih =>
    intro b h
    rw [List.cons_append,
      findSteps_skip (matchStep_none_of_ne_lt (h c (List.mem_cons_self c a'))),
      ih b (fun d hd => h d (List.mem_cons_of_mem c hd))]

theorem digCh_isDigit {d : Nat} (h : d < 10) : (digCh d).isDigit = true := by
  interval_cases d <;> decide

theorem decGo_digits : ∀ (fuel n : Nat), ∀ c ∈ decGo fuel n, c.isDigit = true := by
  intro fuel
  induction fuel with
  | zero => intro n c hc; simp [decGo] at hc
  | succ fuel ih =>
    intro n c hc
    simp only [decGo] at hc
    by_cases hn : n < 10
    · rw [if_pos hn] at hc
      simp only [List.mem_singleton] at hc
      subst hc
      exact digCh_isDigit hn
    · rw [if_neg hn] at hc
      rcases List.mem_append.mp hc with h | h
      · exact ih _ c h
      · simp only [List.mem_singleton] at h
        subst h
        exact digCh_isDigit (Nat.mod_lt _ (by norm_num))

theorem decChars_digits (n : Nat) : ∀ c ∈ decChars n, c.isDigit = true :=
  decGo_digits (n + 1) n

theorem decChars_ne_nil (n : Nat) : decChars n ≠ [] := by
  unfold decChars decGo
  by_cases hn : n < 10
  · rw [if_pos hn]; simp
  · rw [if_neg hn]; simp

theorem isDigit_ne_lt {c : Char} (h : c.isDigit = true) : c ≠ '<' := by
  intro hc
  subst hc
  exact absurd h (by decide)

theorem splitAtFirst_here {pat l : List Char} (h : leadsWith pat l = true) :
    splitAtFirst pat l = some ([], l.drop pat.length) := by
  cases l with
  | nil =>
    cases pat with
    | nil => rfl
    | cons p ps => simp [leadsWith] at h
  | cons c r => simp [splitAtFirst, h]

theorem splitAtFirst_skip_nolt {pat patTail : List Char} (hpat : pat = '<' :: patTail) :
    ∀ (a b : List Char), (∀ c ∈ a, c ≠ '<') →
      splitAtFirst pat (a ++ b) =
        (splitAtFirst pat b).map (fun q => (a ++ q.1, q.2)) := by
  intro a
  induction a with
  | nil =>
    intro b _
    rcases hsb : splitAtFirst pat b with _ | ⟨pre, post⟩ <;> simp [hsb]
  | cons c a' ih =>
    intro b h
    have hc : c ≠ '<' := h c (List.mem_cons_self c a')
    have hlw : leadsWith pat (c :: (a' ++ b)) = false := by
      rw [hpat]
      simp [leadsWith, hc]
    rw [List.cons_append]
    simp only [splitAtFirst, hlw, Bool.false_eq_true, if_false]
    rw [ih b (fun d hd => h d (List.mem_cons_of_mem c hd))]
    rcases splitAtFirst pat b with _ | ⟨pre, post⟩
    · rfl
    · rfl

theorem parseG1_cons_pos {c : Char} {r g2 rest : List Char}
    (hl : leadsWith litPClose (c :: r) = true)
    (ha : afterG1 ((c :: r).drop litPClose.length) = some (g2, rest)) :
    parseG1 (c :: r) = some ([], g2, rest) := by
  simp only [parseG1, hl, if_true, ha]

theorem parseG1_at {x g2 rest : List Char} (ha : afterG1 x = some (g2, rest)) :
    parseG1 (litPClose ++ x) = some ([], g2, rest) := by
  have hl : leadsWith litPClose (litPClose ++ x) = true := leadsWith_refl_append _ _
  have hdr : (litPClose ++ x).drop litPClose.length = x := List.drop_left _ _
  exact parseG1_cons_pos
    (show leadsWith litPClose ('<' :: (chars "/parameterizedString>" ++ x)) = true from hl)
    (show afterG1 (('<' :: (chars "/parameterizedString>" ++ x)).drop litPClose.length) =
        some (g2, rest) from by
      rw [show ('<' :: (chars "/parameterizedString>" ++ x)).drop litPClose.length = x
        from hdr]
      exact ha)

theorem parseG1_skip_nolt :
    ∀ (a b : List Char), (∀ c ∈ a, c ≠ '<') →
      parseG1 (a ++ b) = (parseG1 b).map (fun q => (a ++ q.1, q.2)) := by
  intro a
  induction a with
  | nil =>
    intro b _
    rcases hpb : parseG1 b with _ | ⟨g1, g2, rest⟩ <;> simp [hpb]
  | cons c a' ih =>
    intro b h
    have hc : c ≠ '<' := h c (List.mem_cons_self c a')
    have hlw : leadsWith litPClose (c :: (a' ++ b)) = false := by
      rw [show litPClose = '<' :: chars "/parameterizedString>" from rfl]
      simp [leadsWith, hc]
    rw [List.cons_append]
    simp only [parseG1, hlw, Bool.false_eq_true, if_false]
    rw [ih b (fun d hd => h d (List.mem_cons_of_mem c hd))]
    rcases parseG1 b with _ | ⟨g1, g2, rest⟩
    · rfl
    · rfl

theorem scanType_skip_nq :
    ∀ (a b : List Char), (∀ c ∈ a, c ≠ '"') → scanType (a ++ b) = scanType b := by
  intro a
  induction a with
  | nil => intro b _; rfl
  | cons c a' ih =>
    intro b h
    have hc : c ≠ '"' := h c (List.mem_cons_self c a')
    have hlw : leadsWith litQuoteGt (c :: (a' ++ b)) = false := by
      rw [show litQuoteGt = '"' :: chars ">" from rfl]
      simp [leadsWith, hc]
    rw [List.cons_append]
    simp only [scanType, hlw, Bool.false_eq_true, if_false]
    exact ih b (fun d hd => h d (List.mem_cons_of_mem c hd))

theorem scanType_cons_pos {c : Char} {r y : List Char} {res : List Char × List Char × List Char}
    (hl : leadsWith litQuoteGt (c :: r) = true)
    (hd : dropPref litPString ((c :: r).drop litQuoteGt.length) = some y)
    (hp : parseG1 y = some res) :
    scanType (c :: r) = some res := by
  simp only [scanType, hl, if_true, hd, hp]

theorem scanType_at {y : List Char} {res : List Char × List Char × List Char}
    (hp : parseG1 y = some res) :
    scanType (litQuoteGt ++ (litPString ++ y)) = some res := by
  have hl : leadsWith litQuoteGt (litQuoteGt ++ (litPString ++ y)) = true :=
    leadsWith_refl_append _ _
  have hdr : (litQuoteGt ++ (litPString ++ y)).drop litQuoteGt.length = litPString ++ y :=
    List.drop_left _ _
  exact scanType_cons_pos
    (show leadsWith litQuoteGt ('"' :: (chars ">" ++ (litPString ++ y))) = true from hl)
    (show dropPref litPString
        (('"' :: (chars ">" ++ (litPString ++ y))).drop litQuoteGt.length) = some y from by
      rw [show ('"' :: (chars ">" ++ (litPString ++ y))).drop litQuoteGt.length =
        litPString ++ y from hdr]
      exact dropPref_append _ _)
    hp

theorem afterG1_elem (rest : List Char) :
    afterG1 (litPString ++ (escDIV ++ (litPClose ++ (litDesc ++ rest)))) =
      some (escDIV, rest) := by
  unfold afterG1
  rw [dropPref_append]
  simp only
  have hsk := splitAtFirst_skip_nolt
    (show litPClose ++ litDesc = '<' :: (chars "/parameterizedString>" ++ litDesc) from rfl)
    escDIV (litPClose ++ (litDesc ++ rest)) (by decide)
  rw [hsk]
  rw [show litPClose ++ (litDesc ++ rest) = (litPClose ++ litDesc) ++ rest from
    (List.append_assoc _ _ _).symm]
  rw [splitAtFirst_here (leadsWith_refl_append _ _), List.drop_left]
  simp

theorem matchStep_parts {l r1 r2 : List Char} {res : List Char × List Char × List Char}
    (h1 : dropPref litStepOpen l = some r1)
    (h2 : (r1.takeWhile Char.isDigit).isEmpty = false)
    (h3 : dropPref litType (r1.dropWhile Char.isDigit) = some r2)
    (h4 : scanType r2 = some res) :
    matchStep l = some res := by
  unfold matchStep
  rw [h1]
  simp only [h2, Bool.false_eq_true, if_false, h3, h4]

theorem matchStep_elem (i : Nat) (s rest : List Char) (hs : ∀ c ∈ s, c ≠ '<') :
    matchStep (stepElem i s ++ rest) = some (escP ++ (s ++ escBR), escDIV, rest) := by
  have hshape : stepElem i s ++ rest =
      litStepOpen ++ (decChars i ++ (litType ++ (chars "ActionStep" ++ (litQuoteGt ++
        (litPString ++ (escP ++ (s ++ (escBR ++ (litPClose ++ (litPString ++ (escDIV ++
        (litPClose ++ (litDesc ++ rest))))))))))))) := by
    unfold stepElem litStepOpen litType litQuoteGt litPString litPClose litDesc escP escBR
      escDIV
    simp only [List.append_assoc]
    rfl
  rw [hshape]
  have p1 : parseG1 (litPClose ++ (litPString ++ (escDIV ++ (litPClose ++
      (litDesc ++ rest))))) = some ([], escDIV, rest) :=
    parseG1_at (afterG1_elem rest)
  have p2 : parseG1 (escBR ++ (litPClose ++ (litPString ++ (escDIV ++ (litPClose ++
      (litDesc ++ rest)))))) = some (escBR, escDIV, rest) := by
    rw [parseG1_skip_nolt escBR _ (by decide), p1]
    simp
  have p3 : parseG1 (s ++ (escBR ++ (litPClose ++ (litPString ++ (escDIV ++
      (litPClose ++ (litDesc ++ rest))))))) = some (s ++ escBR, escDIV, rest) := by
    rw [parseG1_skip_nolt s _ hs, p2]
    simp
  have p4 : parseG1 (escP ++ (s ++ (escBR ++ (litPClose ++ (litPString ++ (escDIV ++
      (litPClose ++ (litDesc ++ rest)))))))) = some (escP ++ (s ++ escBR), escDIV, rest) := by
    rw [parseG1_skip_nolt escP _ (by decide), p3]
    simp
  have h4 : scanType (chars "ActionStep" ++ (litQuoteGt ++ (litPString ++
      (escP ++ (s ++ (escBR ++ (litPClose ++ (litPString ++ (escDIV ++ (litPClose ++
      (litDesc ++ rest))))))))))) = some (escP ++ (s ++ escBR), escDIV, rest) := by
    rw [scanType_skip_nq (chars "ActionStep") _ (by decide)]
    exact scanType_at p4
  have htw : (decChars i ++ (litType ++ (chars "ActionStep" ++ (litQuoteGt ++
      (litPString ++ (escP ++ (s ++ (escBR ++ (litPClose ++ (litPString ++ (escDIV ++
      (litPClose ++ (litDesc ++ rest))))))))))))).takeWhile Char.isDigit =
      decChars i := by
    rw [takeWhile_append_of_all _ _ (fun c hc => decChars_digits i c hc)]
    rw [show (litType ++ (chars "ActionStep" ++ (litQuoteGt ++
      (litPString ++ (escP ++ (s ++ (escBR ++ (litPClose ++ (litPString ++ (escDIV ++
      (litPClose ++ (litDesc ++ rest)))))))))))).takeWhile Char.isDigit = []
      from List.takeWhile_cons_of_neg (by decide)]
    rw [List.append_nil]
  have hdw : (decChars i ++ (litType ++ (chars "ActionStep" ++ (litQuoteGt ++
      (litPString ++ (escP ++ (s ++ (escBR ++ (litPClose ++ (litPString ++ (escDIV ++
      (litPClose ++ (litDesc ++ rest))))))))))))).dropWhile Char.isDigit =
      litType ++ (chars "ActionStep" ++ (litQuoteGt ++
      (litPString ++ (escP ++ (s ++ (escBR ++ (litPClose ++ (litPString ++ (escDIV ++
      (litPClose ++ (litDesc ++ rest))))))))))) := by
    rw [dropWhile_append_of_all _ _ (fun c hc => decChars_digits i c hc)]
    exact List.dropWhile_cons_of_neg (by decide)
  have h2 : ((decChars i ++ (litType ++ (chars "ActionStep" ++ (litQuoteGt ++
      (litPString ++ (escP ++ (s ++ (escBR ++ (litPClose ++ (litPString ++ (escDIV ++
      (litPClose ++ (litDesc ++ rest))))))))))))).takeWhile Char.isDigit).isEmpty =
      false := by
    rw [htw]
    rcases hdc : decChars i with _ | ⟨c0, cs0⟩
    · exact absurd hdc (decChars_ne_nil i)
    · rfl
  exact matchStep_parts (dropPref_append _ _) h2
    (by rw [hdw]; exact dropPref_append _ _) h4

theorem findSteps_body (lines : List (List Char)) :
    ∀ i : Nat, (∀ s ∈ lines, ∀ c ∈ s, c ≠ '<') →
      get_steps_and_expected_results
        ((((List.range' i lines.length).zip lines).map
            (fun p => stepElem p.1 p.2)).flatten ++ chars "</steps>") =
        lines.map (fun s => (escP ++ (s ++ escBR), escDIV)) := by
  induction lines with
  | nil =>
    intro i _
    show get_steps_and_expected_results (chars "</steps>") = []
    decide
  | cons s ls ih =>
    intro i h
    simp only [List.length_cons, List.range'_succ, List.zip_cons_cons, List.map_cons,
      List.flatten_cons, List.append_assoc]
    rw [findSteps_match (matchStep_elem i s _ (h s (List.mem_cons_self s ls)))]
    rw [ih (i + 1) (fun t ht => h t (List.mem_cons_of_mem s ht))]

theorem get_pairs_encode (lines : List (List Char))
    (h : ∀ s ∈ lines, ∀ c ∈ s, c ≠ '<') :
    get_steps_and_expected_results (build_steps_xml (transform_steps lines)) =
      lines.map (fun s => (escP ++ (s ++ escBR), escDIV)) := by
  rw [build_steps_xml_flatten]
  rw [show chars "<steps id=\"0\" last=\"" ++ decChars lines.length ++ chars "\">" ++
      (((List.range' 1 lines.length).zip lines).map
        (fun p => stepElem p.1 p.2)).flatten ++ chars "</steps>" =
      chars "<steps id=\"0\" last=\"" ++ (decChars lines.length ++ (chars "\">" ++
      ((((List.range' 1 lines.length).zip lines).map
        (fun p => stepElem p.1 p.2)).flatten ++ chars "</steps>")))
    from by simp only [List.append_assoc]]
  have hm0 : matchStep ('<' :: (chars "steps id=\"0\" last=\"" ++
      (decChars lines.length ++ (chars "\">" ++
      ((((List.range' 1 lines.length).zip lines).map
        (fun p => stepElem p.1 p.2)).flatten ++ chars "</steps>"))))) = none := rfl
  show get_steps_and_expected_results ('<' :: (chars "steps id=\"0\" last=\"" ++
      (decChars lines.length ++ (chars "\">" ++
      ((((List.range' 1 lines.length).zip lines).map
        (fun p => stepElem p.1 p.2)).flatten ++ chars "</steps>"))))) = _
  rw [findSteps_skip hm0]
  rw [findSteps_skip_nolt (chars "steps id=\"0\" last=\"") _ (by decide)]
  rw [findSteps_skip_nolt (decChars lines.length) _
    (fun c hc => isDigit_ne_lt (decChars_digits lines.length c hc))]
  rw [findSteps_skip_nolt (chars "\">") _ (by decide)]
  exact findSteps_body lines 1 h

theorem stripTags_id : ∀ (l : List Char), (∀ c ∈ l, c ≠ '<') → stripTags l = l := by
  intro l
  induction l with
  | nil => intro _; rfl
  | cons c rest ih =>
    intro h
    show stripTagsGo (rest.length + 1) (c :: rest) = c :: rest
    simp only [stripTagsGo]
    rw [if_neg (h c (List.mem_cons_self c rest))]
    rw [show stripTagsGo rest.length rest = stripTags rest from rfl,
      ih (fun d hd => h d (List.mem_cons_of_mem c hd))]

theorem unescapeGo_fuel :
    ∀ (n : Nat) (l : List Char) (f : Nat), l.length ≤ n → l.length ≤ f →
      unescapeGo f l = unescapeGo l.length l := by
  intro n
  induction n with
  | zero =>
    intro l f hn _
    have : l = [] := List.eq_nil_of_length_eq_zero (Nat.le_zero.mp hn)
    subst this
    cases f <;> rfl
  | succ n ih =>
    intro l f hn hf
    cases l with
    | nil => cases f <;> rfl
    | cons c rest =>
      have hf1 : 1 ≤ f := Nat.le_trans (Nat.succ_le_succ (Nat.zero_le _)) hf
      obtain ⟨f', rfl⟩ : ∃ f', f = f' + 1 :=
        ⟨f - 1, (Nat.succ_pred_eq_of_pos hf1).symm⟩
      simp only [List.length_cons] at hn hf
      have hd3 : (rest.drop 3).length ≤ rest.length := by
        rw [List.length_drop]; omega
      have hd4 : (rest.drop 4).length ≤ rest.length := by
        rw [List.length_drop]; omega
      have hd5 : (rest.drop 5).length ≤ rest.length := by
        rw [List.length_drop]; omega
      show unescapeGo (f' + 1) (c :: rest) = unescapeGo (rest.length + 1) (c :: rest)
      simp only [unescapeGo]
      by_cases hc : c = '&'
      · rw [if_pos hc, if_pos hc]
        by_cases h1 : leadsWith (chars "lt;") rest = true
        · rw [if_pos h1, if_pos h1,
            ih (rest.drop 3) f' (by omega) (by omega),
            ih (rest.drop 3) rest.length (by omega) (by omega)]
        · rw [if_neg h1, if_neg h1]
          by_cases h2 : leadsWith (chars "gt;") rest = true
          · rw [if_pos h2, if_pos h2,
              ih (rest.drop 3) f' (by omega) (by omega),
              ih (rest.drop 3) rest.length (by omega) (by omega)]
          · rw [if_neg h2, if_neg h2]
            by_cases h3 : leadsWith (chars "amp;") rest = true
            · rw [if_pos h3, if_pos h3,
                ih (rest.drop 4) f' (by omega) (by omega),
                ih (rest.drop 4) rest.length (by omega) (by omega)]
            · rw [if_neg h3, if_neg h3]
              by_cases h4 : leadsWith (chars "quot;") rest = true
              · rw [if_pos h4, if_pos h4,
                  ih (rest.drop 5) f' (by omega) (by omega),
                  ih (rest.drop 5) rest.length (by omega) (by omega)]
              · rw [if_neg h4, if_neg h4,
                  ih rest f' (by omega) (by omega),
                  ih rest rest.length (by omega) (Nat.le_refl _)]
      · rw [if_neg hc, if_neg hc,
          ih rest f' (by omega) (by omega),
          ih rest rest.length (by omega) (Nat.le_refl _)]

theorem unescape_lt (x : List Char) :
    unescape (chars "&lt;" ++ x) = '<' :: unescape x := by
  have hle : x.length ≤ (chars "lt;" ++ x).length := by
    rw [List.length_append]; omega
  show ('<' : Char) :: unescapeGo ((chars "lt;" ++ x).length) x = '<' :: unescape x
  rw [unescapeGo_fuel ((chars "lt;" ++ x).length) x ((chars "lt;" ++ x).length) hle hle]
  rfl

theorem unescape_gt (x : List Char) :
    unescape (chars "&gt;" ++ x) = '>' :: unescape x := by
  have hle : x.length ≤ (chars "gt;" ++ x).length := by
    rw [List.length_append]; omega
  show ('>' : Char) :: unescapeGo ((chars "gt;" ++ x).length) x = '>' :: unescape x
  rw [unescapeGo_fuel ((chars "gt;" ++ x).length) x ((chars "gt;" ++ x).length) hle hle]
  rfl

theorem unescape_append_ampfree :
    ∀ (a b : List Char), (∀ c ∈ a, c ≠ '&') → unescape (a ++ b) = a ++ unescape b := by
  intro a
  induction a with
  | nil => intro b _; rfl
  | cons c a' ih =>
    intro b h
    show unescapeGo ((a' ++ b).length + 1) (c :: (a' ++ b)) = (c :: a') ++ unescape b
    simp only [unescapeGo]
    rw [if_neg (h c (List.mem_cons_self c a'))]
    rw [show unescapeGo (a' ++ b).length (a' ++ b) = unescape (a' ++ b) from rfl,
      ih b (fun d hd => h d (List.mem_cons_of_mem c hd))]
    rfl

theorem unescape_action (s : List Char) (hs : ∀ c ∈ s, c ≠ '&') :
    unescape (escP ++ (s ++ escBR)) = chars "<P>" ++ (s ++ chars "<BR/></P>") := by
  show unescape (chars "&lt;" ++ (chars "P" ++ (chars "&gt;" ++ (s ++ escBR)))) = _
  rw [unescape_lt, unescape_append_ampfree (chars "P") _ (by decide), unescape_gt,
    unescape_append_ampfree s _ hs,
    show unescape escBR = chars "<BR/></P>" from by decide]
  rfl

theorem removeAllGo_fuel (p : Char) (pt : List Char) (pat : List Char)
    (hpat : pat = p :: pt) :
    ∀ (n : Nat) (l : List Char) (f : Nat), l.length ≤ n → l.length ≤ f →
      removeAllGo pat f l = removeAllGo pat l.length l := by
  intro n
  induction n with
  | zero =>
    intro l f hn _
    have : l = [] := List.eq_nil_of_length_eq_zero (Nat.le_zero.mp hn)
    subst this
    cases f <;> rfl
  | succ n ih =>
    intro l f hn hf
    cases l with
    | nil => cases f <;> rfl
    | cons c rest =>
      have hf1 : 1 ≤ f := Nat.le_trans (Nat.succ_le_succ (Nat.zero_le _)) hf
      obtain ⟨f', rfl⟩ : ∃ f', f = f' + 1 :=
        ⟨f - 1, (Nat.succ_pred_eq_of_pos hf1).symm⟩
      simp only [List.length_cons] at hn hf
      have hdrop : ((c :: rest).drop pat.length).length ≤ rest.length := by
        rw [List.length_drop, hpat]
        simp only [List.length_cons]
        omega
      show removeAllGo pat (f' + 1) (c :: rest) = removeAllGo pat (rest.length + 1) (c :: rest)
      simp only [removeAllGo]
      by_cases hl : leadsWith pat (c :: rest) = true
      · rw [if_pos hl, if_pos hl,
          ih ((c :: rest).drop pat.length) f' (by omega) (by omega),
          ih ((c :: rest).drop pat.length) rest.length (by omega) (by omega)]
      · rw [if_neg hl, if_neg hl,
          ih rest f' (by omega) (by omega),
          ih rest rest.length (by omega) (Nat.le_refl _)]

theorem removeAll_consume (p : Char) (pt : List Char) (pat : List Char)
    (hpat : pat = p :: pt) (x : List Char) :
    removeAll pat (pat ++ x) = removeAll pat x := by
  subst hpat
  have hlw : leadsWith (p :: pt) ((p :: pt) ++ x) = true := leadsWith_refl_append _ _
  have hdl : ((p :: pt) ++ x).drop (p :: pt).length = x := List.drop_left _ _
  show removeAllGo (p :: pt) ((pt ++ x).length + 1) (p :: (pt ++ x)) = removeAll (p :: pt) x
  simp only [removeAllGo]
  rw [if_pos (show leadsWith (p :: pt) (p :: (pt ++ x)) = true from hlw)]
  rw [show (p :: (pt ++ x)).drop (p :: pt).length = x from hdl]
  have hle : x.length ≤ (pt ++ x).length := by
    rw [List.length_append]; omega
  rw [removeAllGo_fuel p pt (p :: pt) rfl ((pt ++ x).length) x ((pt ++ x).length) hle hle]
  rfl

theorem removeAll_append_nolt (pt : List Char) (pat : List Char)
    (hpat : pat = '<' :: pt) :
    ∀ (a b : List Char), (∀ c ∈ a, c ≠ '<') →
      removeAll pat (a ++ b) = a ++ removeAll pat b := by
  intro a
  induction a with
  | nil => intro b _; rfl
  | cons c a' ih =>
    intro b h
    have hc : c ≠ '<' := h c (List.mem_cons_self c a')
    have hlw : leadsWith pat (c :: (a' ++ b)) = false := by
      rw [hpat]
      simp [leadsWith, hc]
    show removeAllGo pat ((a' ++ b).length + 1) (c :: (a' ++ b)) = (c :: a') ++ removeAll pat b
    simp only [removeAllGo]
    rw [if_neg (by rw [hlw]; exact Bool.false_ne_true)]
    rw [show removeAllGo pat (a' ++ b).length (a' ++ b) = removeAll pat (a' ++ b) from rfl,
      ih b (fun d hd => h d (List.mem_cons_of_mem c hd))]
    rfl

theorem trim_action (s : List Char) :
    trim (escP ++ (s ++ escBR)) = escP ++ (s ++ escBR) := by
  unfold trim
  have h1 : (escP ++ (s ++ escBR)).dropWhile isWs = escP ++ (s ++ escBR) :=
    List.dropWhile_cons_of_neg (by decide)
  rw [h1]
  rw [show escP ++ (s ++ escBR) = (escP ++ s) ++ escBR from by rw [List.append_assoc]]
  exact rtrim_nonws_end (by decide) (by decide)

theorem clean_step_action (s : List Char) (h : ∀ c ∈ s, c ≠ '<' ∧ c ≠ '&') :
    clean_step (escP ++ (s ++ escBR)) = s := by
  have hlts : ∀ c ∈ s, c ≠ '<' := fun c hc => (h c hc).1
  have hlt : ∀ c ∈ escP ++ (s ++ escBR), c ≠ '<' := by
    intro c hc
    rcases List.mem_append.mp hc with h1 | h2
    · exact (show ∀ c ∈ escP, c ≠ '<' from by decide) c h1
    · rcases List.mem_append.mp h2 with h3 | h4
      · exact hlts c h3
      · exact (show ∀ c ∈ escBR, c ≠ '<' from by decide) c h4
  unfold clean_step
  rw [trim_action, stripTags_id _ hlt, unescape_action s (fun c hc => (h c hc).2)]
  rw [removeAll_consume '<' (chars "P>") (chars "<P>") rfl]
  rw [removeAll_append_nolt (chars "P>") (chars "<P>") rfl s _ hlts]
  rw [show removeAll (chars "<P>") (chars "<BR/></P>") = chars "<BR/></P>" from by decide]
  rw [removeAll_append_nolt (chars "/P>") (chars "</P>") rfl s _ hlts]
  rw [show removeAll (chars "</P>") (chars "<BR/></P>") = chars "<BR/>" from by decide]
  rw [removeAll_append_nolt (chars "DIV>") (chars "<DIV>") rfl s _ hlts]
  rw [show removeAll (chars "<DIV>") (chars "<BR/>") = chars "<BR/>" from by decide]
  rw [removeAll_append_nolt (chars "/DIV>") (chars "</DIV>") rfl s _ hlts]
  rw [show removeAll (chars "</DIV>") (chars "<BR/>") = chars "<BR/>" from by decide]
  rw [removeAll_append_nolt (chars "BR>") (chars "<BR>") rfl s _ hlts]
  rw [show removeAll (chars "<BR>") (chars "<BR/>") = chars "<BR/>" from by decide]
  rw [removeAll_append_nolt (chars "BR/>") (chars "<BR/>") rfl s _ hlts]
  rw [show removeAll (chars "<BR/>") (chars "<BR/>") = ([] : List Char) from by decide]
  rw [List.append_nil]

set_option maxRecDepth 10000 in
theorem clean_step_escDIV : clean_step escDIV = [] := by decide

/-- C3: lossy codec inverse — for every list of non-empty plain-text action
lines (no markup `<` and no entity `&` characters), decoding the blob
produced by the steps encoder (regex extraction of the (action,
expectedResult) capture pairs followed by the decode-side cleanup of tag
stripping, entity unescaping and removal of the `P`/`DIV`/`BR` wrappers)
yields exactly the input action lines in their original order, each paired
with an empty expected-result. -/
theorem decode_encode_roundtrip (lines : List (List Char))
    (h : ∀ s ∈ lines, s ≠ [] ∧ ∀ c ∈ s, c ≠ '<' ∧ c ≠ '&') :
    decode_steps (build_steps_xml (transform_steps lines)) =
      lines.map (fun s => (s, ([] : List Char))) := by
  unfold decode_steps
  rw [get_pairs_encode lines (fun s hs c hc => ((h s hs).2 c hc).1)]
  rw [List.map_map]
  have hmap : lines.map ((fun p : List Char × List Char =>
        (clean_step p.1, clean_step p.2)) ∘
      (fun s => (escP ++ (s ++ escBR), escDIV))) =
      lines.map (fun s => (s, ([] : List Char))) := by
    apply List.map_congr_left
    intro s hs
    simp only [Function.comp_apply]
    rw [clean_step_action s ((h s hs).2), clean_step_escDIV]
  rw [hmap]
  apply List.filter_eq_self.mpr
  intro p hp
  rcases List.mem_map.mp hp with ⟨s, hs, rfl⟩
  have hne : s ≠ [] := (h s hs).1
  cases s with
  | nil => exact absurd rfl hne
  | cons c cs => rfl

theorem decode_encode_roundtrip_witness :
    decode_steps (build_steps_xml (transform_steps [chars "step1", chars "step2"])) =
      [(chars "step1", ([] : List Char)), (chars "step2", ([] : List Char))] := by
  rw [decode_encode_roundtrip [chars "step1", chars "step2"] (by decide)]
  rfl
